import Mathlib

/-!
The Gherkin token matcher (`gherkin3/matcher.go`)

A shallow embedding of the per-line recognizers of `matcher.go` and proofs of
properties of them.

Go strings are byte sequences: a `GoString` is a list of byte values, `len` is
the list length and `s[a:b]` is a slice of the list.  The receiver `m` of the
recognizers is passed in explicitly and the state it is left in is returned
with the result.
-/

namespace Gherkin

/-! ## Go strings and the `strings` functions used by the matcher -/

/-- A Go string: its sequence of bytes. -/
abbrev GoString := List Nat

/-- UTF-8 encoding of one code point. -/
def utf8Encode (c : Nat) : List Nat :=
  if c < 0x80 then [c]
  else if c < 0x800 then [0xC0 + c / 64, 0x80 + c % 64]
  else if c < 0x10000 then [0xE0 + c / 4096, 0x80 + c / 64 % 64, 0x80 + c % 64]
  else [0xF0 + c / 262144, 0x80 + c / 4096 % 64, 0x80 + c / 64 % 64, 0x80 + c % 64]

/-- The bytes of a string literal of the source (Go source text is UTF-8). -/
def lit (s : String) : GoString :=
  s.toList.foldr (fun c acc => utf8Encode c.toNat ++ acc) []

/-- Go `len(s)`. -/
def len (s : GoString) : Int := (s.length : Int)

/-- Go `strings.HasPrefix(s, p)`. -/
def HasPrefix (s p : GoString) : Bool := p.isPrefixOf s

/-- Go `strings.Split(s, sep)` for a separator `sep` of one byte `c` (the
matcher only splits on `TAG_PREFIX` and `TABLE_CELL_SEPARATOR`): the
fragments of `s` between the occurrences of `c`, one more than there are
occurrences. -/
def Split : GoString → Nat → List GoString
  | [], _ => [[]]
  | b :: s, c =>
    if b = c then [] :: Split s c
    else match Split s c with
      | [] => [[b]]
      | f :: fs => (b :: f) :: fs

/-- Go `strings.TrimLeft(s, cutset)` for a cutset of one byte `c`. -/
def TrimLeft (s : GoString) (c : Nat) : GoString := s.dropWhile (fun b => b == c)

/-- Go `strings.TrimRight(s, cutset)` for a cutset of one byte `c`. -/
def TrimRight (s : GoString) (c : Nat) : GoString :=
  (s.reverse.dropWhile (fun b => b == c)).reverse

/-- Go `strings.Trim(s, cutset)` for a cutset of one byte `c` (the matcher
only trims `" "`): `s` without its leading and trailing bytes `c`. -/
def Trim (s : GoString) (c : Nat) : GoString := TrimRight (TrimLeft s c) c

/-- Go `s[lo:hi]`; `none` is the run-time panic (slice bounds out of range). -/
def slice (s : GoString) (lo hi : Int) : Option GoString :=
  if 0 ≤ lo ∧ lo ≤ hi ∧ hi ≤ len s then some ((s.take hi.toNat).drop lo.toNat) else none

/-- Go `s[lo:]`, which is `s[lo:len(s)]`. -/
def sliceFrom (s : GoString) (lo : Int) : Option GoString := slice s lo (len s)

/-! ## Constants of `matcher.go` -/

def DEFAULT_DIALECT : GoString := lit "en"
def COMMENT_PREFIX : GoString := lit "#"
def TAG_PREFIX : GoString := lit "@"
def TITLE_KEYWORD_SEPARATOR : GoString := lit ":"
def TABLE_CELL_SEPARATOR : GoString := lit "|"
def DOCSTRING_SEPARATOR : GoString := lit "\"\"\""
def DOCSTRING_ALTERNATIVE_SEPARATOR : GoString := lit "```"

/-- The space byte, the only byte of the cutset `" "`. -/
def SP : Nat := 32

/-- The byte of `TAG_PREFIX`. -/
def AT : Nat := 64

/-- The byte of `TABLE_CELL_SEPARATOR`. -/
def BAR : Nat := 124

/-! ## The collaborators declared outside `matcher.go` -/

/-- Modelled from the spec: the type `Line` is declared outside `matcher.go`
("one physical source line plus derived properties — trimmed text,
leading-indent column count, end-of-input/empty flags, line number").  The
fields `lineText`, `trimmedLineText` and `lineNumber` are the ones the matcher
reads; `indent`, `isEof` and `isEmpty` are what `Indent()`, `IsEof()` and
`IsEmpty()` return. -/
structure Line where
  lineText : GoString
  trimmedLineText : GoString
  lineNumber : Int
  indent : Int
  isEof : Bool
  isEmpty : Bool

/-- Modelled from the spec: `Line.Indent()`, the indent of the line. -/
def Line.Indent (line : Line) : Int := line.indent

/-- Modelled from the spec: `Line.IsEof()`, the end-of-input flag. -/
def Line.IsEof (line : Line) : Bool := line.isEof

/-- Modelled from the spec: `Line.IsEmpty()`, the empty flag. -/
def Line.IsEmpty (line : Line) : Bool := line.isEmpty

/-- Modelled from the spec: `Line.StartsWith(prefix)`, the prefix test of the
line, on its trimmed text. -/
def Line.StartsWith (line : Line) (p : GoString) : Bool :=
  HasPrefix line.trimmedLineText p

/-- The indent is the number of bytes stripped from the front of the raw text
to obtain the trimmed text. -/
def Line.IndentIsStripped (line : Line) : Prop :=
  ∃ pre : GoString, line.lineText = pre ++ line.trimmedLineText ∧ line.Indent = len pre

/-- Modelled from the spec: the type `GherkinDialect` is declared outside
`matcher.go`; "a dialect exposes one ordered keyword list per structural
category". -/
structure GherkinDialect where
  FeatureKeywords : List GoString
  BackgroundKeywords : List GoString
  ScenarioKeywords : List GoString
  ScenarioOutlineKeywords : List GoString
  ExamplesKeywords : List GoString
  StepKeywords : List GoString

/-- Modelled from the spec: the interface `GherkinDialectProvider` is declared
outside `matcher.go`; `GetDialect(code)` is "resolve(languageCode) →
dialect-or-not-found", `none` being the nil dialect. -/
abbrev GherkinDialectProvider := GoString → Option GherkinDialect

inductive TokenType where
  | None
  | EOF
  | Empty
  | Comment
  | TagLine
  | FeatureLine
  | BackgroundLine
  | ScenarioLine
  | ScenarioOutlineLine
  | ExamplesLine
  | StepLine
  | DocStringSeparator
  | TableRow
  | Language
  | Other
  deriving DecidableEq, Repr

structure Location where
  Line : Int
  Column : Int
  deriving DecidableEq, Repr

structure LineSpan where
  Column : Int
  Text : GoString
  deriving DecidableEq, Repr

/-- The fields of `Token` that the matcher writes; `new(Token)` is the zero
value. -/
structure Token where
  Type_ : TokenType := TokenType.None
  Keyword : GoString := []
  Text : GoString := []
  Items : List LineSpan := []
  GherkinDialect : GoString := []
  Location : Location := ⟨0, 0⟩
  deriving DecidableEq, Repr

structure parseError where
  msg : GoString
  loc : Location
  deriving DecidableEq, Repr

/-! ## The matcher -/

/-- The matcher state.  The field `languagePattern` of the source is set once,
by `NewMatcher`, to the compiled constant pattern and is never assigned again:
it is the function `languagePattern` below. -/
structure matcher where
  gdp : GherkinDialectProvider
  lang : GoString
  dialect : Option GherkinDialect
  activeDocStringSeparator : GoString
  indentToRemove : Int

/-- What a recognizer returns, `(err, ok, token)`, together with the state it
leaves the matcher in. -/
structure Outcome where
  err : Option parseError
  ok : Bool
  token : Option Token
  m : matcher

/-- The plain `return` of a recognizer that has assigned nothing: no error,
`ok = false`, nil token. -/
def decline (m : matcher) : Outcome := ⟨none, false, none, m⟩

def NewMatcher (gdp : GherkinDialectProvider) : matcher :=
  { gdp := gdp
    lang := DEFAULT_DIALECT
    dialect := gdp DEFAULT_DIALECT
    activeDocStringSeparator := []
    indentToRemove := 0 }

def matcher.newTokenAtLocation (m : matcher) (line index : Int) : Token :=
  let column := index + 1
  { GherkinDialect := m.lang, Location := ⟨line, column⟩ }

def matcher.MatchEOF (m : matcher) (line : Line) : Outcome :=
  if line.IsEof then
    let token := m.newTokenAtLocation line.lineNumber line.Indent
    ⟨none, true, some { token with Type_ := TokenType.EOF }, m⟩
  else decline m

def matcher.MatchEmpty (m : matcher) (line : Line) : Outcome :=
  if line.IsEmpty then
    let token := m.newTokenAtLocation line.lineNumber line.Indent
    ⟨none, true, some { token with Type_ := TokenType.Empty }, m⟩
  else decline m

def matcher.MatchComment (m : matcher) (line : Line) : Outcome :=
  if line.StartsWith COMMENT_PREFIX then
    let token := m.newTokenAtLocation line.lineNumber 0
    ⟨none, true, some { token with Type_ := TokenType.Comment, Text := line.lineText }, m⟩
  else decline m

/-- One iteration of the loop of `MatchTagLine` over `splits[i]`, on the
variables `(tags, column)`. -/
def tagStep (acc : List LineSpan × Int) (split : GoString) : List LineSpan × Int :=
  let tags := acc.1
  let column := acc.2
  let txt := Trim split SP
  let tags := if txt ≠ [] then tags ++ [⟨column, TAG_PREFIX ++ txt⟩] else tags
  (tags, column + len split + 1)

def matcher.MatchTagLine (m : matcher) (line : Line) : Outcome :=
  if line.StartsWith TAG_PREFIX then
    let column := line.Indent
    let splits := Split line.trimmedLineText AT
    let tags := (splits.foldl tagStep ([], column)).1
    let token := m.newTokenAtLocation line.lineNumber line.Indent
    ⟨none, true, some { token with Type_ := TokenType.TagLine, Items := tags }, m⟩
  else decline m

/-- The loop of `matchTitleLine` over `keywords`, from the first keyword on;
`none` is the run-time panic of the slice expression. -/
def matcher.matchTitleLine (m : matcher) (line : Line) (tokenType : TokenType) :
    List GoString → Option Outcome
  | [] => some (decline m)
  | keyword :: keywords =>
    if line.StartsWith (keyword ++ TITLE_KEYWORD_SEPARATOR) then
      let token := m.newTokenAtLocation line.lineNumber line.Indent
      (sliceFrom line.trimmedLineText (len keyword + 1)).map fun rest =>
        ⟨none, true,
          some { token with Type_ := tokenType, Keyword := keyword, Text := Trim rest SP }, m⟩
    else m.matchTitleLine line tokenType keywords

/-- The keyword list read through the matcher's dialect pointer; with a nil
dialect there is no list to read and the recognizer does not return (`none`). -/
def matcher.MatchFeatureLine (m : matcher) (line : Line) : Option Outcome :=
  m.dialect.bind fun d => m.matchTitleLine line TokenType.FeatureLine d.FeatureKeywords

def matcher.MatchBackgroundLine (m : matcher) (line : Line) : Option Outcome :=
  m.dialect.bind fun d => m.matchTitleLine line TokenType.BackgroundLine d.BackgroundKeywords

def matcher.MatchScenarioLine (m : matcher) (line : Line) : Option Outcome :=
  m.dialect.bind fun d => m.matchTitleLine line TokenType.ScenarioLine d.ScenarioKeywords

def matcher.MatchScenarioOutlineLine (m : matcher) (line : Line) : Option Outcome :=
  m.dialect.bind fun d =>
    m.matchTitleLine line TokenType.ScenarioOutlineLine d.ScenarioOutlineKeywords

def matcher.MatchExamplesLine (m : matcher) (line : Line) : Option Outcome :=
  m.dialect.bind fun d => m.matchTitleLine line TokenType.ExamplesLine d.ExamplesKeywords

/-- The loop of `MatchStepLine` over `keywords`, from the first keyword on;
`none` is the run-time panic of the slice expression. -/
def matcher.stepLoop (m : matcher) (line : Line) : List GoString → Option Outcome
  | [] => some (decline m)
  | keyword :: keywords =>
    if line.StartsWith keyword then
      let token := m.newTokenAtLocation line.lineNumber line.Indent
      (sliceFrom line.trimmedLineText (len keyword)).map fun rest =>
        ⟨none, true,
          some { token with Type_ := TokenType.StepLine, Keyword := keyword,
                            Text := Trim rest SP }, m⟩
    else m.stepLoop line keywords

def matcher.MatchStepLine (m : matcher) (line : Line) : Option Outcome :=
  m.dialect.bind fun d => m.stepLoop line d.StepKeywords

def matcher.MatchDocStringSeparator (m : matcher) (line : Line) : Option Outcome :=
  if m.activeDocStringSeparator ≠ [] then
    if line.StartsWith m.activeDocStringSeparator then
      -- close
      let token := m.newTokenAtLocation line.lineNumber line.Indent
      some ⟨none, true, some { token with Type_ := TokenType.DocStringSeparator },
        { m with indentToRemove := 0, activeDocStringSeparator := [] }⟩
    else some (decline m)
  else
    let m1 : matcher :=
      if line.StartsWith DOCSTRING_SEPARATOR then
        { m with activeDocStringSeparator := DOCSTRING_SEPARATOR }
      else if line.StartsWith DOCSTRING_ALTERNATIVE_SEPARATOR then
        { m with activeDocStringSeparator := DOCSTRING_ALTERNATIVE_SEPARATOR }
      else m
    if m1.activeDocStringSeparator ≠ [] then
      -- open
      (sliceFrom line.trimmedLineText (len m1.activeDocStringSeparator)).map fun contentType =>
        let m2 : matcher := { m1 with indentToRemove := line.Indent }
        let token := m2.newTokenAtLocation line.lineNumber line.Indent
        ⟨none, true,
          some { token with Type_ := TokenType.DocStringSeparator, Text := contentType }, m2⟩
    else some (decline m1)

/-- The inner loop of `MatchTableRow`: `for k := range txt` counts in `ind`
the bytes `" "` at the front of `txt` and breaks at the first other byte (a
space is a rune of one byte, so `k` advances by one up to the break). -/
def leadingSpaces : GoString → Int
  | [] => 0
  | b :: txt => if b ≠ SP then 0 else leadingSpaces txt + 1

/-- One iteration of the outer loop of `MatchTableRow` over `splits[i]`, on
the variables `(cells, column)`. -/
def cellStep (acc : List LineSpan × Int) (split : GoString) : List LineSpan × Int :=
  let cells := acc.1
  let column := acc.2
  let txt := split
  let ind := leadingSpaces txt
  let cells := cells ++ [⟨column + ind + 1, Trim split SP⟩]
  (cells, column + len txt + 1)

/-- The recognizer `MatchTableRow`; `none` is the run-time panic of the slice
expression `ttxt[1:len(ttxt)-1]`. -/
def matcher.MatchTableRow (m : matcher) (line : Line) : Option Outcome :=
  if line.StartsWith TABLE_CELL_SEPARATOR then
    let column := line.Indent + 1
    let ttxt := Trim line.trimmedLineText SP
    (slice ttxt 1 (len ttxt - 1)).map fun inner =>
      let splits := Split inner BAR
      let cells := (splits.foldl cellStep ([], column)).1
      let token := m.newTokenAtLocation line.lineNumber line.Indent
      ⟨none, true, some { token with Type_ := TokenType.TableRow, Items := cells }, m⟩
  else some (decline m)

/-! ### The language directive pattern

`^\s*#\s*language\s*:\s*([a-zA-Z\-_]+)\s*$` -/

/-- The class `\s` of Go regular expressions: `[\t\n\f\r ]`. -/
def isSpace (b : Nat) : Bool := b == 9 || b == 10 || b == 12 || b == 13 || b == 32

/-- The class `[a-zA-Z\-_]`. -/
def isCode (b : Nat) : Bool :=
  (97 ≤ b && b ≤ 122) || (65 ≤ b && b ≤ 90) || b == 45 || b == 95

/-- The language of the pattern: `s` is
`\s* # \s* language \s* : \s* code \s*` with `code` in `[a-zA-Z\-_]+`. -/
def MatchesLanguagePattern (s code : GoString) : Prop :=
  ∃ w1 w2 w3 w4 w5 : GoString,
    (∀ b ∈ w1, isSpace b = true) ∧ (∀ b ∈ w2, isSpace b = true) ∧
    (∀ b ∈ w3, isSpace b = true) ∧ (∀ b ∈ w4, isSpace b = true) ∧
    (∀ b ∈ w5, isSpace b = true) ∧
    code ≠ [] ∧ (∀ b ∈ code, isCode b = true) ∧
    s = w1 ++ lit "#" ++ w2 ++ lit "language" ++ w3 ++ lit ":" ++ w4 ++ code ++ w5

/-- Consume the literal `p` at the front of `s`. -/
def expect (p s : GoString) : Option GoString :=
  if p.isPrefixOf s then some (s.drop p.length) else none

/-- The call `m.languagePattern.FindStringSubmatch(s)`: the slice
`[whole match, group 1]` when `s` matches, the nil slice otherwise.  Each
`\s*` and the group are matched greedily, which loses no match: the byte that
has to follow each of them is outside its class. -/
def languagePattern (s : GoString) : List GoString :=
  match expect (lit "#") (s.dropWhile isSpace) with
  | none => []
  | some s1 =>
    match expect (lit "language") (s1.dropWhile isSpace) with
    | none => []
    | some s2 =>
      match expect (lit ":") (s2.dropWhile isSpace) with
      | none => []
      | some s3 =>
        let s4 := s3.dropWhile isSpace
        let code := s4.takeWhile isCode
        if code ≠ [] ∧ ((s4.dropWhile isCode).dropWhile isSpace) = [] then [s, code] else []

/-- The recognizer `MatchLanguage`; `none` is the run-time panic of the index
expression `matches[1]`. -/
def matcher.MatchLanguage (m : matcher) (line : Line) : Option Outcome :=
  let matches_ := languagePattern line.trimmedLineText
  if (matches_.length : Int) > 0 then
    matches_[1]?.map fun lang =>
      let token := m.newTokenAtLocation line.lineNumber line.Indent
      let token := { token with Type_ := TokenType.Language, Text := lang }
      let dialect := m.gdp lang
      match dialect with
      | none => ⟨some ⟨lit "Language not supported: " ++ lang, token.Location⟩, true, some token, m⟩
      | some d => ⟨none, true, some token, { m with lang := lang, dialect := some d }⟩
  else some (decline m)

/-- The loop of `MatchOther`: `for k := range txt` breaks at the first byte
that is not `" "` and when `ind >= m.indentToRemove`, and counts in `ind` the
spaces passed (a space is a rune of one byte, so `k` advances by one up to the
break).  The result is the final `ind`. -/
def otherLoop (indentToRemove : Int) : GoString → Int → Int
  | [], ind => ind
  | b :: txt, ind =>
    if b ≠ SP then ind
    else if ind ≥ indentToRemove then ind
    else otherLoop indentToRemove txt (ind + 1)

/-- The recognizer `MatchOther`; `none` is the run-time panic of the slice
expression `txt[ind:]`. -/
def matcher.MatchOther (m : matcher) (line : Line) : Option Outcome :=
  let token := m.newTokenAtLocation line.lineNumber 0
  let txt := line.lineText
  let ind := otherLoop m.indentToRemove txt 0
  (sliceFrom txt ind).map fun rest =>
    ⟨none, true, some { token with Type_ := TokenType.Other, Text := rest }, m⟩

/-! ## Sample data -/

/-- A line of the given raw text whose trimmed text is the raw text without
its leading spaces and tabs, and whose indent is the number of bytes
stripped. -/
def mkLine (lineNumber : Int) (text : GoString) : Line :=
  let trimmed := text.dropWhile (fun b => b == 32 || b == 9)
  { lineText := text
    trimmedLineText := trimmed
    lineNumber := lineNumber
    indent := len text - len trimmed
    isEof := false
    isEmpty := trimmed.isEmpty }

/-- A dialect with a few English keywords. -/
def sampleDialect : GherkinDialect :=
  { FeatureKeywords := [lit "Feature"]
    BackgroundKeywords := [lit "Background"]
    ScenarioKeywords := [lit "Scenario"]
    ScenarioOutlineKeywords := [lit "Scenario Outline"]
    ExamplesKeywords := [lit "Examples", lit "Scenarios"]
    StepKeywords := [lit "Given ", lit "When ", lit "Then ", lit "And ", lit "Given I "] }

/-- A provider that resolves `en` only. -/
def sampleProvider : GherkinDialectProvider :=
  fun code => if code = lit "en" then some sampleDialect else none

/-- The matcher as created for a document. -/
def sampleMatcher : matcher := NewMatcher sampleProvider

/-- A matcher with a docstring open on the primary fence at indent 2. -/
def openMatcher : matcher :=
  { sampleMatcher with activeDocStringSeparator := DOCSTRING_SEPARATOR, indentToRemove := 2 }

/-! ## The loops in closed form -/

/-- The shape of a successful result of the keyword loops: the keyword comes
after keywords that do not match, and it matches. -/
def FirstMatch (test : GoString → Bool) (ks before : List GoString) (kw : GoString)
    (after : List GoString) : Prop :=
  ks = before ++ kw :: after ∧ (∀ k ∈ before, test k = false) ∧ test kw = true


/-- The spans that the loop of `MatchTagLine` appends while it runs over
`splits` with `column` at the given value. -/
def tagSpans : List GoString → Int → List LineSpan
  | [], _ => []
  | f :: fs, column =>
    (if Trim f SP ≠ [] then [⟨column, TAG_PREFIX ++ Trim f SP⟩] else [])
      ++ tagSpans fs (column + len f + 1)

/-- The spans that the loop of `MatchTableRow` appends while it runs over
`splits` with `column` at the given value. -/
def cellSpans : List GoString → Int → List LineSpan
  | [], _ => []
  | f :: fs, column =>
    ⟨column + leadingSpaces f + 1, Trim f SP⟩ :: cellSpans fs (column + len f + 1)

/-! ## Sequences of recognizer calls -/

/-- The recognizers of the `Matcher` interface. -/
inductive Recognizer where
  | EOF
  | Empty
  | Comment
  | TagLine
  | FeatureLine
  | BackgroundLine
  | ScenarioLine
  | ScenarioOutlineLine
  | ExamplesLine
  | StepLine
  | DocStringSeparator
  | TableRow
  | Language
  | Other
  deriving DecidableEq, Repr

/-- One call of a recognizer on a line; `none` when the call does not return. -/
def matcher.call (m : matcher) (rec : Recognizer) (line : Line) : Option Outcome :=
  match rec with
  | Recognizer.EOF => some (m.MatchEOF line)
  | Recognizer.Empty => some (m.MatchEmpty line)
  | Recognizer.Comment => some (m.MatchComment line)
  | Recognizer.TagLine => some (m.MatchTagLine line)
  | Recognizer.FeatureLine => m.MatchFeatureLine line
  | Recognizer.BackgroundLine => m.MatchBackgroundLine line
  | Recognizer.ScenarioLine => m.MatchScenarioLine line
  | Recognizer.ScenarioOutlineLine => m.MatchScenarioOutlineLine line
  | Recognizer.ExamplesLine => m.MatchExamplesLine line
  | Recognizer.StepLine => m.MatchStepLine line
  | Recognizer.DocStringSeparator => m.MatchDocStringSeparator line
  | Recognizer.TableRow => m.MatchTableRow line
  | Recognizer.Language => m.MatchLanguage line
  | Recognizer.Other => m.MatchOther line

/-- The state of the matcher after a sequence of recognizer calls, each on the
state left by the one before; `none` when one of the calls does not return. -/
def matcher.run (m : matcher) : List (Recognizer × Line) → Option matcher
  | [] => some m
  | (rec, line) :: calls => (m.call rec line).bind fun r => r.m.run calls

/-- The frame of a recognizer that assigns no field of the matcher: the state
is unchanged and the token, if any, carries the matcher's `lang`. -/
def Frame (m : matcher) (r : Outcome) : Prop :=
  r.m = m ∧ ∀ tok, r.token = some tok → tok.GherkinDialect = m.lang

/-- The fence invariant: the active fence literal is empty or one of the two
fence literals, and with no fence open the indent to remove is zero. -/
def FenceInv (m : matcher) : Prop :=
  (m.activeDocStringSeparator = [] ∨ m.activeDocStringSeparator = DOCSTRING_SEPARATOR ∨
    m.activeDocStringSeparator = DOCSTRING_ALTERNATIVE_SEPARATOR) ∧
  (m.activeDocStringSeparator = [] → m.indentToRemove = 0)

/-- The code of a language directive: group 1 of the pattern on the trimmed
text of the line, when the line matches. -/
def directiveCode (line : Line) : Option GoString :=
  match languagePattern line.trimmedLineText with
  | [_, code] => some code
  | _ => none

/-- The code that a call resolves: the call is `MatchLanguage` on a language
directive and the provider has a dialect for the code of the directive. -/
def resolvedCode (gdp : GherkinDialectProvider) : Recognizer × Line → Option GoString
  | (Recognizer.Language, line) => (directiveCode line).filter fun c => (gdp c).isSome
  | _ => none

/-- The codes of the language directives of a sequence of calls that the
provider resolved, in order. -/
def resolvedCodes (gdp : GherkinDialectProvider) (calls : List (Recognizer × Line)) :
    List GoString :=
  calls.filterMap (resolvedCode gdp)

/-- The code of the most recent language directive that the provider resolved,
or the given code if there was none. -/
def lastResolved (gdp : GherkinDialectProvider) (calls : List (Recognizer × Line))
    (dflt : GoString) : GoString :=
  (resolvedCodes gdp calls).getLast?.getD dflt

/-- The number of characters (code points) of a UTF-8 text: its bytes that are
not continuation bytes `10xxxxxx`. -/
def runeCount (s : GoString) : Nat := (s.filter fun b => b / 64 != 2).length

/-- A dialect with a few French keywords. -/
def frDialect : GherkinDialect :=
  { FeatureKeywords := [lit "Fonctionnalité"]
    BackgroundKeywords := [lit "Contexte"]
    ScenarioKeywords := [lit "Scénario"]
    ScenarioOutlineKeywords := [lit "Plan du scénario"]
    ExamplesKeywords := [lit "Exemples"]
    StepKeywords := [lit "Soit ", lit "Quand ", lit "Alors ", lit "Et "] }

/-- A provider that resolves `en` and `fr`. -/
def twoProvider : GherkinDialectProvider :=
  fun code =>
    if code = lit "en" then some sampleDialect
    else if code = lit "fr" then some frDialect
    else none

/-- The first `i` fragments of a split, each followed by the separator `c`:
the text that stands before the fragment `i` in the text that was split. -/
def textBefore (c : Nat) (fs : List GoString) (i : Nat) : GoString :=
  (fs.take i).flatMap fun f => f ++ [c]

/-- The tag span of the fragment `j` of the split of a tag line on the tag
prefix: none for a fragment that is empty after trimming, and otherwise the
indent plus the number of bytes of the trimmed text that stand before the
fragment, with `"@"` and the trimmed fragment as the text. -/
def tagSpanAt (indent : Int) (frags : List GoString) (j : Nat) : Option LineSpan :=
  match frags[j]? with
  | none => none
  | some f =>
    if Trim f SP ≠ [] then some ⟨indent + len (textBefore AT frags j), TAG_PREFIX ++ Trim f SP⟩
    else none

end Gherkin

namespace Gherkin

/-! ## Go strings -/

theorem Split_ne_nil (s : GoString) (c : Nat) : Split s c ≠ [] := by
  cases s with
  | nil => simp [Split]
  | cons b s =>
    simp only [Split]
    split
    · simp
    · split <;> simp

/-- Every fragment of `Split s c` preceded by `c` again, in order, is `c`
followed by `s`. -/
theorem Split_flatMap (s : GoString) (c : Nat) :
    (Split s c).flatMap (fun f => c :: f) = c :: s := by
  induction s with
  | nil => simp [Split]
  | cons b s ih =>
    simp only [Split]
    split
    · next h => subst h; simp [ih]
    · split
      · next h => exact absurd h (Split_ne_nil s c)
      · next f fs h =>
        rw [h] at ih
        simp only [List.flatMap_cons, List.cons_append, List.cons.injEq, true_and] at ih ⊢
        rw [ih]

/-! ## `MatchTagLine` -/

theorem foldl_tagStep (fs : List GoString) (acc : List LineSpan) (column : Int) :
    (fs.foldl tagStep (acc, column)).1 = acc ++ tagSpans fs column := by
  induction fs generalizing acc column with
  | nil => simp [tagSpans]
  | cons f fs ih =>
    simp only [List.foldl_cons, tagStep, tagSpans]
    rw [ih]
    split <;> simp

theorem tagSpans_text (fs : List GoString) (column : Int) :
    (tagSpans fs column).map (fun sp => sp.Text) =
      ((fs.map (fun f => Trim f SP)).filter (fun t => decide (t ≠ []))).map
        (fun t => TAG_PREFIX ++ t) := by
  induction fs generalizing column with
  | nil => simp [tagSpans]
  | cons f fs ih =>
    simp only [tagSpans, List.map_append, ih, List.map_cons, List.filter_cons]
    by_cases h : Trim f SP = [] <;> simp [h]

theorem tagSpans_column_ge (fs : List GoString) (column : Int) :
    ∀ sp ∈ tagSpans fs column, column ≤ sp.Column := by
  induction fs generalizing column with
  | nil => simp [tagSpans]
  | cons f fs ih =>
    intro sp hsp
    simp only [tagSpans, List.mem_append] at hsp
    rcases hsp with hsp | hsp
    · split at hsp
      · simp only [List.mem_singleton] at hsp
        subst hsp
        exact le_refl _
      · simp at hsp
    · have := ih _ sp hsp
      have hl : 0 ≤ len f := by simp [len]
      omega

theorem tagSpans_increasing (fs : List GoString) (column : Int) :
    ((tagSpans fs column).map (fun sp => sp.Column)).Pairwise (fun a b => a < b) := by
  induction fs generalizing column with
  | nil => simp [tagSpans]
  | cons f fs ih =>
    simp only [tagSpans, List.map_append, List.pairwise_append]
    refine ⟨?_, ih _, ?_⟩
    · split <;> simp
    · intro a ha b hb
      simp only [List.mem_map] at ha hb
      obtain ⟨sa, hsa, rfl⟩ := ha
      obtain ⟨sb, hsb, rfl⟩ := hb
      have hb2 := tagSpans_column_ge fs _ sb hsb
      have hl : 0 ≤ len f := by simp [len]
      split at hsa
      · simp only [List.mem_singleton] at hsa
        subst hsa
        show column < sb.Column
        omega
      · simp at hsa

/-- With `column` one past the length of the text `p` before a tag prefix,
each span of the loop is at the 1-based position of a tag prefix. -/
theorem tagSpans_at (fs : List GoString) (p : GoString) (column : Int)
    (hcol : column = len p + 1) :
    ∀ sp ∈ tagSpans fs column,
      1 ≤ sp.Column ∧ (p ++ fs.flatMap (fun f => AT :: f))[(sp.Column - 1).toNat]? = some AT := by
  induction fs generalizing p column with
  | nil => simp [tagSpans]
  | cons f fs ih =>
    intro sp hsp
    simp only [tagSpans, List.mem_append] at hsp
    rcases hsp with hsp | hsp
    · split at hsp
      · simp only [List.mem_singleton] at hsp
        subst hsp
        have hl : 0 ≤ len p := by simp [len]
        refine ⟨by show 1 ≤ column; omega, ?_⟩
        show (p ++ _)[(column - 1).toNat]? = some AT
        have : (column - 1).toNat = p.length := by
          subst hcol; simp [len]
        rw [this, List.getElem?_append_right (le_refl _)]
        simp
      · simp at hsp
    · have h := ih (p ++ AT :: f) (column + len f + 1) (by subst hcol; simp [len]; ring) sp hsp
      refine ⟨h.1, ?_⟩
      simpa using h.2

theorem hasPrefix_singleton {s : GoString} {c : Nat} (h : HasPrefix s [c] = true) :
    ∃ t, s = c :: t := by
  cases s with
  | nil => simp [HasPrefix, List.isPrefixOf] at h
  | cons b t =>
    simp [HasPrefix, List.isPrefixOf] at h
    exact ⟨t, by rw [h]⟩

/-- Claim C1. On a line whose trimmed text starts with the tag prefix and whose
indent is the number of bytes stripped from the raw text, `MatchTagLine`
matches with a tag-line token; the texts of its spans are, in order and with
duplicates kept, `"@"` followed by each space-trimmed fragment of
`strings.Split(trimmedText, "@")` that is not empty, so there are as many
spans as such fragments; the columns increase from left to right; and the
byte at the 1-based position `Column` of the raw line is `'@'` for every
span. -/
theorem MatchTagLine_spans (m : matcher) (line : Line)
    (hstart : line.StartsWith TAG_PREFIX = true) (hind : line.IndentIsStripped) :
    ∃ tok, m.MatchTagLine line = ⟨none, true, some tok, m⟩ ∧
      tok.Type_ = TokenType.TagLine ∧
      tok.Items.map (fun sp => sp.Text) =
        (((Split line.trimmedLineText AT).map (fun f => Trim f SP)).filter
          (fun t => decide (t ≠ []))).map (fun t => TAG_PREFIX ++ t) ∧
      tok.Items.length =
        ((Split line.trimmedLineText AT).filter (fun f => decide (Trim f SP ≠ []))).length ∧
      (tok.Items.map (fun sp => sp.Column)).Pairwise (fun a b => a < b) ∧
      ∀ sp ∈ tok.Items,
        1 ≤ sp.Column ∧ line.lineText[(sp.Column - 1).toNat]? = some AT := by
  obtain ⟨pre, hpre, hindent⟩ := hind
  obtain ⟨t, ht⟩ := hasPrefix_singleton (c := AT) hstart
  have hitems : ((Split line.trimmedLineText AT).foldl tagStep ([], line.Indent)).1
      = tagSpans (Split line.trimmedLineText AT) line.Indent := by
    rw [foldl_tagStep]; simp
  refine ⟨{ m.newTokenAtLocation line.lineNumber line.Indent with
      Type_ := TokenType.TagLine
      Items := ((Split line.trimmedLineText AT).foldl tagStep ([], line.Indent)).1 },
    ?_, rfl, ?_, ?_, ?_, ?_⟩
  · simp only [matcher.MatchTagLine, hstart, if_true]
  · show List.map _ ((Split line.trimmedLineText AT).foldl tagStep ([], line.Indent)).1 = _
    rw [hitems, tagSpans_text]
  · show List.length ((Split line.trimmedLineText AT).foldl tagStep ([], line.Indent)).1 = _
    rw [hitems]
    have := congrArg List.length (tagSpans_text (Split line.trimmedLineText AT) line.Indent)
    simp only [List.length_map] at this
    rw [this, List.filter_map, List.length_map]
    rfl
  · show List.Pairwise _
      (List.map _ ((Split line.trimmedLineText AT).foldl tagStep ([], line.Indent)).1)
    rw [hitems]
    exact tagSpans_increasing _ _
  · intro sp hsp
    change sp ∈ ((Split line.trimmedLineText AT).foldl tagStep ([], line.Indent)).1 at hsp
    rw [hitems, ht] at hsp
    have hsplit : Split (AT :: t) AT = [] :: Split t AT := by simp [Split]
    rw [hsplit] at hsp
    have hsp2 : sp ∈ tagSpans (Split t AT) (line.Indent + 1) := by
      simpa [tagSpans, Trim, TrimLeft, TrimRight, len] using hsp
    have h := tagSpans_at (Split t AT) pre (line.Indent + 1) (by rw [hindent]) sp hsp2
    rw [Split_flatMap] at h
    rw [hpre, ht]
    exact h

/-- Witness of C1 on the line `"  @a @b @a"`. -/
theorem MatchTagLine_spans_witness :
    ∃ tok, sampleMatcher.MatchTagLine (mkLine 3 (lit "  @a @b @a"))
        = ⟨none, true, some tok, sampleMatcher⟩ ∧
      tok.Type_ = TokenType.TagLine ∧
      tok.Items.map (fun sp => sp.Text) =
        (((Split (mkLine 3 (lit "  @a @b @a")).trimmedLineText AT).map
          (fun f => Trim f SP)).filter
          (fun t => decide (t ≠ []))).map (fun t => TAG_PREFIX ++ t) ∧
      tok.Items.length =
        ((Split (mkLine 3 (lit "  @a @b @a")).trimmedLineText AT).filter
          (fun f => decide (Trim f SP ≠ []))).length ∧
      (tok.Items.map (fun sp => sp.Column)).Pairwise (fun a b => a < b) ∧
      ∀ sp ∈ tok.Items,
        1 ≤ sp.Column ∧
          (mkLine 3 (lit "  @a @b @a")).lineText[(sp.Column - 1).toNat]? = some AT :=
  MatchTagLine_spans sampleMatcher (mkLine 3 (lit "  @a @b @a")) (by decide)
    ⟨lit "  ", by decide, by decide⟩

/-! ## `MatchDocStringSeparator` with an open docstring -/

theorem DOCSTRING_SEPARATOR_bytes : DOCSTRING_SEPARATOR = [34, 34, 34] := by decide

theorem DOCSTRING_ALTERNATIVE_SEPARATOR_bytes :
    DOCSTRING_ALTERNATIVE_SEPARATOR = [96, 96, 96] := by decide

/-- No text starts with both fence literals. -/
theorem fences_exclusive (t : GoString) :
    ¬ (HasPrefix t DOCSTRING_SEPARATOR = true ∧
        HasPrefix t DOCSTRING_ALTERNATIVE_SEPARATOR = true) := by
  rw [DOCSTRING_SEPARATOR_bytes, DOCSTRING_ALTERNATIVE_SEPARATOR_bytes]
  cases t with
  | nil => simp [HasPrefix, List.isPrefixOf]
  | cons b t =>
    simp only [HasPrefix, List.isPrefixOf, Bool.and_eq_true, beq_iff_eq]
    omega

theorem MatchDocStringSeparator_close (m : matcher) (line : Line)
    (hne : m.activeDocStringSeparator ≠ [])
    (hp : line.StartsWith m.activeDocStringSeparator = true) :
    m.MatchDocStringSeparator line =
      some ⟨none, true,
        some { m.newTokenAtLocation line.lineNumber line.Indent with
                Type_ := TokenType.DocStringSeparator },
        { m with indentToRemove := 0, activeDocStringSeparator := [] }⟩ := by
  unfold matcher.MatchDocStringSeparator
  rw [if_pos hne, if_pos hp]

theorem MatchDocStringSeparator_stay (m : matcher) (line : Line)
    (hne : m.activeDocStringSeparator ≠ [])
    (hp : line.StartsWith m.activeDocStringSeparator = false) :
    m.MatchDocStringSeparator line = some (decline m) := by
  unfold matcher.MatchDocStringSeparator
  rw [if_pos hne, if_neg (by simp [hp])]

/-- Claim C2. With a docstring open on the fence literal `f` (one of the two
literals), `MatchDocStringSeparator` returns on every line, and it matches
exactly when the trimmed text starts with `f`.  On a match it returns a
docstring-separator token and no error, and leaves the matcher closed: the
active literal empty, the indent to remove zero, the rest of the state as it
was.  Otherwise it declines with no token and no error and the state
unchanged; this is so in particular on a line that starts with the other
fence literal. -/
theorem MatchDocStringSeparator_open (m : matcher) (line : Line) (f : GoString)
    (hf : f = DOCSTRING_SEPARATOR ∨ f = DOCSTRING_ALTERNATIVE_SEPARATOR)
    (hopen : m.activeDocStringSeparator = f) :
    ∃ r, m.MatchDocStringSeparator line = some r ∧
      (r.ok = true ↔ HasPrefix line.trimmedLineText f = true) ∧
      (HasPrefix line.trimmedLineText f = true →
        r.err = none ∧
        r.token = some { m.newTokenAtLocation line.lineNumber line.Indent with
                          Type_ := TokenType.DocStringSeparator } ∧
        r.m.activeDocStringSeparator = [] ∧ r.m.indentToRemove = 0 ∧
        r.m = { m with activeDocStringSeparator := [], indentToRemove := 0 }) ∧
      (HasPrefix line.trimmedLineText f = false →
        r.ok = false ∧ r.err = none ∧ r.token = none ∧ r.m = m ∧
        r.m.activeDocStringSeparator = f ∧ r.m.indentToRemove = m.indentToRemove) ∧
      (∀ g, (g = DOCSTRING_SEPARATOR ∨ g = DOCSTRING_ALTERNATIVE_SEPARATOR) → g ≠ f →
        HasPrefix line.trimmedLineText g = true →
        r.ok = false ∧ r.token = none ∧ r.m = m) := by
  have hne : m.activeDocStringSeparator ≠ [] := by
    rw [hopen]
    rcases hf with rfl | rfl
    · rw [DOCSTRING_SEPARATOR_bytes]; simp
    · rw [DOCSTRING_ALTERNATIVE_SEPARATOR_bytes]; simp
  by_cases hp : HasPrefix line.trimmedLineText f = true
  · refine ⟨_, MatchDocStringSeparator_close m line hne (by rw [hopen]; exact hp),
      ?_, ?_, ?_, ?_⟩
    · simp [hp]
    · intro _
      exact ⟨rfl, rfl, rfl, rfl, rfl⟩
    · intro h
      rw [hp] at h
      cases h
    · intro g hg hgf hpg
      exfalso
      rcases hf with rfl | rfl <;> rcases hg with rfl | rfl
      · exact hgf rfl
      · exact fences_exclusive _ ⟨hp, hpg⟩
      · exact fences_exclusive _ ⟨hpg, hp⟩
      · exact hgf rfl
  · have hp2 : HasPrefix line.trimmedLineText f = false := by simpa using hp
    refine ⟨decline m, MatchDocStringSeparator_stay m line hne (by rw [hopen]; exact hp2),
      ?_, ?_, ?_, ?_⟩
    · simp [decline, hp2]
    · intro h
      exact absurd h hp
    · intro _
      exact ⟨rfl, rfl, rfl, rfl, hopen, rfl⟩
    · intro _ _ _ _
      exact ⟨rfl, rfl, rfl⟩

/-- Witness of C2: with a docstring open on `"""`, a line starting with the
other literal declines and leaves the docstring open. -/
theorem MatchDocStringSeparator_open_witness :
    ∃ r, openMatcher.MatchDocStringSeparator (mkLine 5 (lit "  ```")) = some r ∧
      r.ok = false ∧ r.token = none ∧
      r.m.activeDocStringSeparator = DOCSTRING_SEPARATOR ∧ r.m.indentToRemove = 2 := by
  obtain ⟨r, h1, _, _, h4, _⟩ :=
    MatchDocStringSeparator_open openMatcher (mkLine 5 (lit "  ```")) DOCSTRING_SEPARATOR
      (Or.inl rfl) rfl
  have h := h4 (by decide)
  exact ⟨r, h1, h.1, h.2.2.1, h.2.2.2.2.1, h.2.2.2.2.2⟩

/-! ## `MatchOther` -/

theorem leadingSpaces_nonneg (txt : GoString) : 0 ≤ leadingSpaces txt := by
  induction txt with
  | nil => simp [leadingSpaces]
  | cons b txt ih =>
    simp only [leadingSpaces]
    split <;> omega

theorem leadingSpaces_le_len (txt : GoString) : leadingSpaces txt ≤ len txt := by
  induction txt with
  | nil => simp [leadingSpaces, len]
  | cons b txt ih =>
    simp only [leadingSpaces, len, List.length_cons, Nat.cast_add, Nat.cast_one] at ih ⊢
    have := leadingSpaces_nonneg txt
    split <;> omega

/-- The text starts with its `leadingSpaces` spaces, and what follows them
does not start with a space. -/
theorem leadingSpaces_spec (txt : GoString) :
    txt = List.replicate (leadingSpaces txt).toNat SP ++ txt.drop (leadingSpaces txt).toNat ∧
      (txt.drop (leadingSpaces txt).toNat).head? ≠ some SP := by
  induction txt with
  | nil => simp [leadingSpaces]
  | cons b txt ih =>
    have h0 := leadingSpaces_nonneg txt
    simp only [leadingSpaces]
    split
    · next h => simpa using h
    · next h =>
      have hb : b = SP := by simpa using h
      have : (leadingSpaces txt + 1).toNat = (leadingSpaces txt).toNat + 1 := by omega
      rw [this]
      simp only [List.replicate_succ, List.cons_append, List.drop_succ_cons]
      exact ⟨by rw [← ih.1, hb], ih.2⟩

theorem leadingSpaces_replicate_append (k : Nat) (rest : GoString) :
    leadingSpaces (List.replicate k SP ++ rest) = k + leadingSpaces rest := by
  induction k with
  | zero => simp
  | succ k ih =>
    have hstep : leadingSpaces (SP :: (List.replicate k SP ++ rest))
        = leadingSpaces (List.replicate k SP ++ rest) + 1 := by
      simp [leadingSpaces]
    rw [List.replicate_succ, List.cons_append, hstep, ih]
    push_cast
    ring

theorem take_leadingSpaces (txt : GoString) (j : Nat) (hj : (j : Int) ≤ leadingSpaces txt) :
    txt.take j = List.replicate j SP := by
  induction txt generalizing j with
  | nil =>
    simp only [leadingSpaces] at hj
    have : j = 0 := by omega
    subst this
    simp
  | cons b txt ih =>
    cases j with
    | zero => simp
    | succ j =>
      simp only [leadingSpaces] at hj
      split at hj
      · omega
      · next h =>
        have hb : b = SP := by simpa using h
        simp only [List.take_succ_cons, List.replicate_succ, hb]
        rw [ih j (by push_cast at hj; omega)]

/-- The loop of `MatchOther` in closed form: from `ind` it passes the leading
spaces of the text, but not more than `indentToRemove - ind` of them. -/
theorem otherLoop_eq (n : Int) (txt : GoString) (ind : Int) :
    otherLoop n txt ind = ind + max 0 (min (leadingSpaces txt) (n - ind)) := by
  induction txt generalizing ind with
  | nil => simp only [otherLoop, leadingSpaces]; omega
  | cons b txt ih =>
    have h0 := leadingSpaces_nonneg txt
    simp only [otherLoop, leadingSpaces]
    split
    · omega
    · split
      · omega
      · rw [ih]; omega

theorem sliceFrom_eq_drop (s : GoString) (lo : Int) (h0 : 0 ≤ lo) (h1 : lo ≤ len s) :
    sliceFrom s lo = some (s.drop lo.toNat) := by
  unfold sliceFrom slice
  rw [if_pos ⟨h0, h1, le_refl _⟩]
  simp [len]

/-- What `MatchOther` returns, on every line and in every state. -/
theorem MatchOther_eq (m : matcher) (line : Line) :
    m.MatchOther line =
      some ⟨none, true,
        some { m.newTokenAtLocation line.lineNumber 0 with
                Type_ := TokenType.Other
                Text := line.lineText.drop
                  (min (leadingSpaces line.lineText) m.indentToRemove).toNat }, m⟩ := by
  have h0 := leadingSpaces_nonneg line.lineText
  have h1 := leadingSpaces_le_len line.lineText
  have hloop := otherLoop_eq m.indentToRemove line.lineText 0
  have hind : otherLoop m.indentToRemove line.lineText 0
      = ((min (leadingSpaces line.lineText) m.indentToRemove).toNat : Int) := by
    rw [hloop]; omega
  unfold matcher.MatchOther
  simp only []
  rw [sliceFrom_eq_drop _ _ (by rw [hind]; omega) (by rw [hind]; omega), hind]
  simp only [Int.toNat_ofNat, Option.map_some']

/-- Claim C3. Round trip of `MatchOther`: in a state with `indentToRemove = k`,
`k ≥ 0`, on a line whose raw text begins with at least `k` spaces,
`MatchOther` matches and `k` spaces followed by the token's text are the raw
text of the line. -/
theorem MatchOther_roundtrip (m : matcher) (line : Line) (k : Nat) (rest : GoString)
    (hk : m.indentToRemove = (k : Int))
    (hraw : line.lineText = List.replicate k SP ++ rest) :
    ∃ r tok, m.MatchOther line = some r ∧ r.ok = true ∧ r.token = some tok ∧
      List.replicate k SP ++ tok.Text = line.lineText := by
  refine ⟨_, _, MatchOther_eq m line, rfl, rfl, ?_⟩
  have h0 := leadingSpaces_nonneg rest
  have hmin : (min (leadingSpaces line.lineText) m.indentToRemove).toNat = k := by
    rw [hraw, leadingSpaces_replicate_append, hk]; omega
  show List.replicate k SP ++ line.lineText.drop _ = line.lineText
  rw [hmin, hraw]
  rw [List.drop_left' (by simp)]

/-- Witness of C3: indent to remove 2 and the line `"   content"`. -/
theorem MatchOther_roundtrip_witness :
    ∃ r tok, openMatcher.MatchOther (mkLine 4 (lit "   content")) = some r ∧ r.ok = true ∧
      r.token = some tok ∧
      List.replicate 2 SP ++ tok.Text = (mkLine 4 (lit "   content")).lineText :=
  MatchOther_roundtrip openMatcher (mkLine 4 (lit "   content")) 2 (lit " content")
    (by decide) (by decide)

/-- Claim C4. `MatchOther` succeeds on every line and in every state: it
returns, with `ok = true`, no error, a token of type `Other`, and the state
unchanged.  The token's text is the raw text without its first
`min(s, indentToRemove)` bytes (none when that number is negative), `s` being
the number of leading spaces of the raw text; so only spaces are removed, and
when `s < indentToRemove` exactly the `s` leading spaces are removed and the
text left does not start with a space. -/
theorem MatchOther_succeeds (m : matcher) (line : Line) :
    ∃ tok, m.MatchOther line = some ⟨none, true, some tok, m⟩ ∧
      tok.Type_ = TokenType.Other ∧
      tok.Text = line.lineText.drop
        (min (leadingSpaces line.lineText) m.indentToRemove).toNat ∧
      line.lineText =
        List.replicate (min (leadingSpaces line.lineText) m.indentToRemove).toNat SP
          ++ tok.Text ∧
      (leadingSpaces line.lineText < m.indentToRemove →
        line.lineText = List.replicate (leadingSpaces line.lineText).toNat SP ++ tok.Text ∧
        tok.Text.head? ≠ some SP) := by
  have hspec := leadingSpaces_spec line.lineText
  have h0 := leadingSpaces_nonneg line.lineText
  refine ⟨_, MatchOther_eq m line, rfl, rfl, ?_, ?_⟩
  · show line.lineText = _ ++ line.lineText.drop _
    rw [← take_leadingSpaces line.lineText _ (by omega)]
    exact (List.take_append_drop _ _).symm
  · intro hlt
    have hmin : min (leadingSpaces line.lineText) m.indentToRemove
        = leadingSpaces line.lineText := by omega
    show line.lineText = _ ++ line.lineText.drop _ ∧ (line.lineText.drop _).head? ≠ _
    rw [hmin]
    exact hspec

/-! ## `MatchStepLine` and `matchTitleLine` -/

theorem hasPrefix_len_le {s p : GoString} (h : HasPrefix s p = true) : len p ≤ len s := by
  have hp : p <+: s := List.isPrefixOf_iff_prefix.mp h
  simpa [len] using hp.length_le

theorem FirstMatch.cons_of_false {test : GoString → Bool} {ks before after : List GoString}
    {kw k0 : GoString} (h0 : test k0 = false) (h : FirstMatch test ks before kw after) :
    FirstMatch test (k0 :: ks) (k0 :: before) kw after := by
  obtain ⟨h1, h2, h3⟩ := h
  refine ⟨by rw [h1]; rfl, ?_, h3⟩
  intro k hk
  rcases List.mem_cons.mp hk with rfl | hk
  · exact h0
  · exact h2 k hk

theorem stepLoop_spec (m : matcher) (line : Line) (ks : List GoString) :
    ∃ r, m.stepLoop line ks = some r ∧ r.m = m ∧ r.err = none ∧
      ((r.ok = false ∧ r.token = none ∧
          ∀ k ∈ ks, HasPrefix line.trimmedLineText k = false) ∨
       (r.ok = true ∧ ∃ before kw after,
          FirstMatch (HasPrefix line.trimmedLineText) ks before kw after ∧
          r.token = some { m.newTokenAtLocation line.lineNumber line.Indent with
            Type_ := TokenType.StepLine
            Keyword := kw
            Text := Trim (line.trimmedLineText.drop kw.length) SP })) := by
  induction ks with
  | nil => exact ⟨decline m, rfl, rfl, rfl, Or.inl ⟨rfl, rfl, by simp⟩⟩
  | cons k0 ks ih =>
    by_cases h : HasPrefix line.trimmedLineText k0 = true
    · have hs : sliceFrom line.trimmedLineText (len k0)
          = some (line.trimmedLineText.drop k0.length) := by
        rw [sliceFrom_eq_drop _ _ (by simp [len]) (hasPrefix_len_le h)]
        simp [len]
      refine ⟨⟨none, true, some { m.newTokenAtLocation line.lineNumber line.Indent with
          Type_ := TokenType.StepLine
          Keyword := k0
          Text := Trim (line.trimmedLineText.drop k0.length) SP }, m⟩, ?_, rfl, rfl,
        Or.inr ⟨rfl, [], k0, ks, ⟨rfl, by simp, h⟩, rfl⟩⟩
      simp only [matcher.stepLoop, Line.StartsWith, h, if_true, hs, Option.map_some']
    · have h0 : HasPrefix line.trimmedLineText k0 = false := by simpa using h
      obtain ⟨r, hr, hm, he, hcases⟩ := ih
      refine ⟨r, by simp only [matcher.stepLoop, Line.StartsWith, h0, Bool.false_eq_true,
        if_false, hr], hm, he, ?_⟩
      rcases hcases with ⟨hok, htok, hall⟩ | ⟨hok, before, kw, after, hfm, htok⟩
      · refine Or.inl ⟨hok, htok, ?_⟩
        intro k hk
        rcases List.mem_cons.mp hk with rfl | hk
        · exact h0
        · exact hall k hk
      · exact Or.inr ⟨hok, k0 :: before, kw, after, hfm.cons_of_false h0, htok⟩

/-- Claim C5. With the step keywords `ks` of the matcher's dialect,
`MatchStepLine` returns on every line, without an error and with the state
unchanged, and it matches exactly when some keyword of `ks` is a prefix of the
trimmed text.  When it matches, the token is a step-line token whose keyword
is the first keyword of `ks`, in list order, that is a prefix of the trimmed
text (every keyword listed before it is not a prefix), and whose text is the
trimmed text without its first `len(Keyword)` bytes, trimmed of spaces at both
ends; when it does not match there is no token. -/
theorem MatchStepLine_first_keyword (m : matcher) (line : Line) (d : GherkinDialect)
    (hd : m.dialect = some d) :
    ∃ r, m.MatchStepLine line = some r ∧ r.m = m ∧ r.err = none ∧
      (r.ok = true ↔ ∃ k ∈ d.StepKeywords, HasPrefix line.trimmedLineText k = true) ∧
      (r.ok = false → r.token = none) ∧
      (r.ok = true → ∃ before kw after,
        d.StepKeywords = before ++ kw :: after ∧
        (∀ k ∈ before, HasPrefix line.trimmedLineText k = false) ∧
        HasPrefix line.trimmedLineText kw = true ∧
        r.token = some { m.newTokenAtLocation line.lineNumber line.Indent with
          Type_ := TokenType.StepLine
          Keyword := kw
          Text := Trim (line.trimmedLineText.drop kw.length) SP }) := by
  obtain ⟨r, hr, hm, he, hcases⟩ := stepLoop_spec m line d.StepKeywords
  refine ⟨r, by simp only [matcher.MatchStepLine, hd, Option.some_bind, hr], hm, he, ?_⟩
  rcases hcases with ⟨hok, htok, hall⟩ | ⟨hok, before, kw, after, hfm, htok⟩
  · refine ⟨?_, fun _ => htok, ?_⟩
    · constructor
      · intro h; rw [hok] at h; cases h
      · rintro ⟨k, hk, hpk⟩
        rw [hall k hk] at hpk
        cases hpk
    · intro h; rw [hok] at h; cases h
  · refine ⟨?_, ?_, fun _ => ⟨before, kw, after, hfm.1, hfm.2.1, hfm.2.2, htok⟩⟩
    · constructor
      · intro _
        exact ⟨kw, by rw [hfm.1]; simp, hfm.2.2⟩
      · intro _; exact hok
    · intro h; rw [hok] at h; cases h

/-- Witness of C5: `"Given I am here"` under keywords that list `"Given "`
before the longer `"Given I "`. -/
theorem MatchStepLine_first_keyword_witness :
    ∃ r, sampleMatcher.MatchStepLine (mkLine 7 (lit "  Given I am here")) = some r ∧
      r.ok = true ∧
      ∃ tok, r.token = some tok ∧ tok.Keyword = lit "Given " ∧ tok.Text = lit "I am here" := by
  obtain ⟨r, h1, _, _, h4, _, h6⟩ :=
    MatchStepLine_first_keyword sampleMatcher (mkLine 7 (lit "  Given I am here"))
      sampleDialect rfl
  have hok : r.ok = true := h4.mpr ⟨lit "Given ", by decide, by decide⟩
  refine ⟨r, h1, hok, ?_⟩
  have h1b : sampleMatcher.MatchStepLine (mkLine 7 (lit "  Given I am here"))
      = some ⟨none, true, some { sampleMatcher.newTokenAtLocation 7 2 with
          Type_ := TokenType.StepLine
          Keyword := lit "Given "
          Text := lit "I am here" }, sampleMatcher⟩ := rfl
  rw [h1b] at h1
  cases h1
  exact ⟨_, rfl, rfl, rfl⟩

theorem TITLE_KEYWORD_SEPARATOR_bytes : TITLE_KEYWORD_SEPARATOR = [58] := by decide

theorem matchTitleLine_spec (m : matcher) (line : Line) (tokenType : TokenType)
    (ks : List GoString) :
    ∃ r, m.matchTitleLine line tokenType ks = some r ∧ r.m = m ∧ r.err = none ∧
      ((r.ok = false ∧ r.token = none ∧
          ∀ k ∈ ks, HasPrefix line.trimmedLineText (k ++ TITLE_KEYWORD_SEPARATOR) = false) ∨
       (r.ok = true ∧ ∃ before kw after,
          FirstMatch (fun k => HasPrefix line.trimmedLineText (k ++ TITLE_KEYWORD_SEPARATOR))
            ks before kw after ∧
          r.token = some { m.newTokenAtLocation line.lineNumber line.Indent with
            Type_ := tokenType
            Keyword := kw
            Text := Trim (line.trimmedLineText.drop (kw.length + 1)) SP })) := by
  induction ks with
  | nil => exact ⟨decline m, rfl, rfl, rfl, Or.inl ⟨rfl, rfl, by simp⟩⟩
  | cons k0 ks ih =>
    by_cases h : HasPrefix line.trimmedLineText (k0 ++ TITLE_KEYWORD_SEPARATOR) = true
    · have hle := hasPrefix_len_le h
      have hlen : len (k0 ++ TITLE_KEYWORD_SEPARATOR) = len k0 + 1 := by
        simp [len, TITLE_KEYWORD_SEPARATOR_bytes]
      have hs : sliceFrom line.trimmedLineText (len k0 + 1)
          = some (line.trimmedLineText.drop (k0.length + 1)) := by
        rw [sliceFrom_eq_drop _ _ (by simp only [len]; omega) (by rw [← hlen]; exact hle)]
        simp only [len, Option.some.injEq]
        congr 1
      refine ⟨⟨none, true, some { m.newTokenAtLocation line.lineNumber line.Indent with
          Type_ := tokenType
          Keyword := k0
          Text := Trim (line.trimmedLineText.drop (k0.length + 1)) SP }, m⟩, ?_, rfl, rfl,
        Or.inr ⟨rfl, [], k0, ks, ⟨rfl, by simp, h⟩, rfl⟩⟩
      simp only [matcher.matchTitleLine, Line.StartsWith, h, if_true, hs, Option.map_some']
    · have h0 : HasPrefix line.trimmedLineText (k0 ++ TITLE_KEYWORD_SEPARATOR) = false := by
        simpa using h
      obtain ⟨r, hr, hm, he, hcases⟩ := ih
      refine ⟨r, by simp only [matcher.matchTitleLine, Line.StartsWith, h0,
        Bool.false_eq_true, if_false, hr], hm, he, ?_⟩
      rcases hcases with ⟨hok, htok, hall⟩ | ⟨hok, before, kw, after, hfm, htok⟩
      · refine Or.inl ⟨hok, htok, ?_⟩
        intro k hk
        rcases List.mem_cons.mp hk with rfl | hk
        · exact h0
        · exact hall k hk
      · exact Or.inr ⟨hok, k0 :: before, kw, after, hfm.cons_of_false h0, htok⟩

/-- Claim C6. For every token type, keyword list `ks` and line, `matchTitleLine`
returns, without an error and with the state unchanged, and it matches exactly
when the trimmed text starts with `k + ":"` for some `k` of `ks`.  When it
matches, the token has the requested type, its keyword is the first `k` of
`ks`, in list order, with that property (every keyword listed before it fails
the test), and its text is the trimmed text without its first `len(k) + 1`
bytes, trimmed of spaces at both ends; when it does not match there is no
token.  `MatchFeatureLine`, `MatchBackgroundLine`, `MatchScenarioLine`,
`MatchScenarioOutlineLine` and `MatchExamplesLine` are `matchTitleLine` with
their token type and the dialect's keyword list of that category.
`"Scenario: Logging in"` with the keyword `"Scenario"` gives the keyword
`"Scenario"` and the text `"Logging in"`. -/
theorem matchTitleLine_first_keyword (m : matcher) (line : Line) (tokenType : TokenType)
    (ks : List GoString) :
    (∃ r, m.matchTitleLine line tokenType ks = some r ∧ r.m = m ∧ r.err = none ∧
      (r.ok = true ↔
        ∃ k ∈ ks, HasPrefix line.trimmedLineText (k ++ TITLE_KEYWORD_SEPARATOR) = true) ∧
      (r.ok = false → r.token = none) ∧
      (r.ok = true → ∃ before kw after,
        ks = before ++ kw :: after ∧
        (∀ k ∈ before, HasPrefix line.trimmedLineText (k ++ TITLE_KEYWORD_SEPARATOR) = false) ∧
        HasPrefix line.trimmedLineText (kw ++ TITLE_KEYWORD_SEPARATOR) = true ∧
        r.token = some { m.newTokenAtLocation line.lineNumber line.Indent with
          Type_ := tokenType
          Keyword := kw
          Text := Trim (line.trimmedLineText.drop (kw.length + 1)) SP })) ∧
    (∀ d, m.dialect = some d →
      m.MatchFeatureLine line
        = m.matchTitleLine line TokenType.FeatureLine d.FeatureKeywords ∧
      m.MatchBackgroundLine line
        = m.matchTitleLine line TokenType.BackgroundLine d.BackgroundKeywords ∧
      m.MatchScenarioLine line
        = m.matchTitleLine line TokenType.ScenarioLine d.ScenarioKeywords ∧
      m.MatchScenarioOutlineLine line
        = m.matchTitleLine line TokenType.ScenarioOutlineLine d.ScenarioOutlineKeywords ∧
      m.MatchExamplesLine line
        = m.matchTitleLine line TokenType.ExamplesLine d.ExamplesKeywords) ∧
    sampleMatcher.MatchScenarioLine (mkLine 2 (lit "Scenario: Logging in"))
      = some ⟨none, true, some { sampleMatcher.newTokenAtLocation 2 0 with
          Type_ := TokenType.ScenarioLine
          Keyword := lit "Scenario"
          Text := lit "Logging in" }, sampleMatcher⟩ := by
  refine ⟨?_, ?_, rfl⟩
  · obtain ⟨r, hr, hm, he, hcases⟩ := matchTitleLine_spec m line tokenType ks
    refine ⟨r, hr, hm, he, ?_⟩
    rcases hcases with ⟨hok, htok, hall⟩ | ⟨hok, before, kw, after, hfm, htok⟩
    · refine ⟨?_, fun _ => htok, ?_⟩
      · constructor
        · intro h; rw [hok] at h; cases h
        · rintro ⟨k, hk, hpk⟩
          rw [hall k hk] at hpk
          cases hpk
      · intro h; rw [hok] at h; cases h
    · refine ⟨?_, ?_, fun _ => ⟨before, kw, after, hfm.1, hfm.2.1, hfm.2.2, htok⟩⟩
      · constructor
        · intro _
          exact ⟨kw, by rw [hfm.1]; simp, hfm.2.2⟩
        · intro _; exact hok
      · intro h; rw [hok] at h; cases h
  · intro d hd
    simp only [matcher.MatchFeatureLine, matcher.MatchBackgroundLine, matcher.MatchScenarioLine,
      matcher.MatchScenarioOutlineLine, matcher.MatchExamplesLine, hd, Option.some_bind,
      and_self]

/-! ## `MatchTableRow` -/

theorem Split_append_sep (s s2 : GoString) (c : Nat) :
    Split (s ++ c :: s2) c = Split s c ++ Split s2 c := by
  induction s with
  | nil => simp [Split]
  | cons b s ih =>
    simp only [List.cons_append, Split]
    split
    · simp [ih]
    · have ih2 : Split (s.append (c :: s2)) c = Split s c ++ Split s2 c := ih
      rw [ih2]
      cases h : Split s c with
      | nil => exact absurd h (Split_ne_nil s c)
      | cons f fs => simp

theorem Split_length (s : GoString) (c : Nat) : (Split s c).length = s.count c + 1 := by
  induction s with
  | nil => simp [Split]
  | cons b s ih =>
    simp only [Split]
    split
    · next h => subst h; simp [ih]
    · next h =>
      have hc : (b :: s).count c = s.count c := by
        rw [List.count_cons]
        simp [h]
      rw [hc, ← ih]
      cases h2 : Split s c with
      | nil => exact absurd h2 (Split_ne_nil s c)
      | cons f fs => simp

theorem TrimLeft_eq_drop (txt : GoString) :
    TrimLeft txt SP = txt.drop (leadingSpaces txt).toNat := by
  induction txt with
  | nil => simp [TrimLeft]
  | cons b txt ih =>
    have h0 := leadingSpaces_nonneg txt
    simp only [TrimLeft, leadingSpaces, List.dropWhile_cons] at ih ⊢
    by_cases h : b = SP
    · have : (leadingSpaces txt + 1).toNat = (leadingSpaces txt).toNat + 1 := by omega
      simp [h, this, ih]
    · simp [h]

theorem TrimRight_prefix (s : GoString) (c : Nat) : TrimRight s c <+: s :=
  List.rdropWhile_prefix (fun b => b == c) s

/-- A raw cell is its leading spaces, its trimmed text and then a rest. -/
theorem Trim_spec (f : GoString) :
    ∃ tl, f = List.replicate (leadingSpaces f).toNat SP ++ Trim f SP ++ tl := by
  obtain ⟨tl, htl⟩ := TrimRight_prefix (TrimLeft f SP) SP
  refine ⟨tl, ?_⟩
  have h := (leadingSpaces_spec f).1
  rw [List.append_assoc]
  show f = _ ++ (TrimRight (TrimLeft f SP) SP ++ tl)
  rw [htl, TrimLeft_eq_drop]
  exact h

theorem foldl_cellStep (fs : List GoString) (acc : List LineSpan) (column : Int) :
    (fs.foldl cellStep (acc, column)).1 = acc ++ cellSpans fs column := by
  induction fs generalizing acc column with
  | nil => simp [cellSpans]
  | cons f fs ih =>
    simp only [List.foldl_cons, cellStep, cellSpans]
    rw [ih]
    simp

theorem cellSpans_text (fs : List GoString) (column : Int) :
    (cellSpans fs column).map (fun sp => sp.Text) = fs.map (fun f => Trim f SP) := by
  induction fs generalizing column with
  | nil => simp [cellSpans]
  | cons f fs ih => simp [cellSpans, ih]

theorem cellSpans_column_gt (fs : List GoString) (column : Int) :
    ∀ sp ∈ cellSpans fs column, column < sp.Column := by
  induction fs generalizing column with
  | nil => simp [cellSpans]
  | cons f fs ih =>
    intro sp hsp
    simp only [cellSpans, List.mem_cons] at hsp
    have h0 := leadingSpaces_nonneg f
    have hl : 0 ≤ len f := by simp [len]
    rcases hsp with rfl | hsp
    · show column < column + leadingSpaces f + 1
      omega
    · have := ih _ sp hsp
      omega

theorem cellSpans_increasing (fs : List GoString) (column : Int) :
    ((cellSpans fs column).map (fun sp => sp.Column)).Pairwise (fun a b => a < b) := by
  induction fs generalizing column with
  | nil => simp [cellSpans]
  | cons f fs ih =>
    simp only [cellSpans, List.map_cons, List.pairwise_cons]
    refine ⟨?_, ih _⟩
    intro b hb
    simp only [List.mem_map] at hb
    obtain ⟨sb, hsb, rfl⟩ := hb
    have := cellSpans_column_gt fs _ sb hsb
    have := leadingSpaces_le_len f
    omega

theorem flatMap_shift (c : Nat) (l : List GoString) :
    l.flatMap (fun f => c :: f) ++ [c] = c :: l.flatMap (fun f => f ++ [c]) := by
  induction l with
  | nil => rfl
  | cons f l ih =>
    simp only [List.flatMap_cons, List.cons_append, List.append_assoc, ih, List.nil_append]

theorem textBefore_zero (c : Nat) (fs : List GoString) : textBefore c fs 0 = [] := by
  simp [textBefore]

theorem textBefore_cons_succ (c : Nat) (f : GoString) (fs : List GoString) (i : Nat) :
    textBefore c (f :: fs) (i + 1) = f ++ c :: textBefore c fs i := by
  simp [textBefore]

/-- A list of fragments, each preceded by the separator, cut at the fragment
`j`: the separator, the fragments before `j` each followed by the separator,
the fragment `j`, and the later fragments each preceded by the separator. -/
theorem flatMap_split_at (c : Nat) (fs : List GoString) (j : Nat) (f : GoString)
    (h : fs[j]? = some f) :
    fs.flatMap (fun g => c :: g)
      = c :: (textBefore c fs j ++ f ++ (fs.drop (j + 1)).flatMap (fun g => c :: g)) := by
  induction fs generalizing j with
  | nil => simp at h
  | cons g fs ih =>
    cases j with
    | zero =>
      simp only [List.getElem?_cons_zero, Option.some.injEq] at h
      subst h
      simp [textBefore_zero]
    | succ j =>
      simp only [List.getElem?_cons_succ] at h
      rw [List.flatMap_cons, ih j h, textBefore_cons_succ]
      simp

/-- The text that was split, cut at the fragment `j` of the split. -/
theorem Split_decompose (s : GoString) (c : Nat) (j : Nat) (f : GoString)
    (h : (Split s c)[j]? = some f) :
    s = textBefore c (Split s c) j ++ f
          ++ ((Split s c).drop (j + 1)).flatMap (fun g => c :: g) := by
  have h1 := flatMap_split_at c (Split s c) j f h
  rw [Split_flatMap] at h1
  exact List.tail_eq_of_cons_eq h1

theorem cellSpans_length (fs : List GoString) (column : Int) :
    (cellSpans fs column).length = fs.length := by
  have := congrArg List.length (cellSpans_text fs column)
  simpa using this

/-- The span of the raw cell `i` in closed form: the column is the running
column at the start of the loop, plus the bytes of the cells before it, each
with its delimiter, plus the leading spaces of the cell, plus one. -/
theorem cellSpans_getElem (fs : List GoString) (column : Int) (i : Nat) (cell : GoString)
    (h : fs[i]? = some cell) :
    (cellSpans fs column)[i]?
      = some ⟨column + len (textBefore BAR fs i) + leadingSpaces cell + 1, Trim cell SP⟩ := by
  induction fs generalizing column i with
  | nil => simp at h
  | cons f fs ih =>
    cases i with
    | zero =>
      simp only [List.getElem?_cons_zero, Option.some.injEq] at h
      subst h
      simp [cellSpans, textBefore_zero, len]
    | succ i =>
      simp only [List.getElem?_cons_succ] at h
      simp only [cellSpans, List.getElem?_cons_succ]
      rw [ih _ i h, textBefore_cons_succ]
      simp only [len, List.length_append, List.length_cons, Option.some.injEq,
        LineSpan.mk.injEq, and_true]
      push_cast
      ring

/-- The trimmed row: a trimmed text that starts with the cell delimiter and
whose space-trimmed text `t` has at least two bytes is `t` followed by a rest,
and `t` is the delimiter, an inner text and a last byte. -/
theorem row_shape (line : Line) (hstart : line.StartsWith TABLE_CELL_SEPARATOR = true)
    (hlen : 2 ≤ (Trim line.trimmedLineText SP).length) :
    ∃ inner x trail, Trim line.trimmedLineText SP = BAR :: (inner ++ [x]) ∧
      line.trimmedLineText = BAR :: (inner ++ [x]) ++ trail := by
  obtain ⟨rest, hrest⟩ := hasPrefix_singleton (c := BAR) hstart
  have hleft : TrimLeft line.trimmedLineText SP = line.trimmedLineText := by
    rw [hrest]; simp [TrimLeft, BAR, SP]
  obtain ⟨trail, htrail⟩ := TrimRight_prefix (TrimLeft line.trimmedLineText SP) SP
  rw [hleft] at htrail
  have ht : Trim line.trimmedLineText SP = TrimRight line.trimmedLineText SP := by
    simp only [Trim, hleft]
  rw [ht] at hlen ⊢
  cases hT : TrimRight line.trimmedLineText SP with
  | nil => rw [hT] at hlen; simp at hlen
  | cons a t' =>
    rw [hT] at hlen htrail
    have ha : a = BAR := by
      rw [hrest] at htrail
      simp only [List.cons_append, List.cons.injEq] at htrail
      exact htrail.1
    subst ha
    have hne : t' ≠ [] := by
      intro h; rw [h] at hlen; simp at hlen
    obtain ⟨inner, x, hix⟩ : ∃ inner x, t' = inner ++ [x] :=
      ⟨t'.dropLast, t'.getLast hne, (List.dropLast_append_getLast hne).symm⟩
    refine ⟨inner, x, trail, by rw [hix], ?_⟩
    rw [← htrail, hix]

/-- What `MatchTableRow` returns on a row of that shape. -/
theorem MatchTableRow_eq (m : matcher) (line : Line) (inner : GoString) (x : Nat)
    (hstart : line.StartsWith TABLE_CELL_SEPARATOR = true)
    (ht : Trim line.trimmedLineText SP = BAR :: (inner ++ [x])) :
    m.MatchTableRow line =
      some ⟨none, true,
        some { m.newTokenAtLocation line.lineNumber line.Indent with
                Type_ := TokenType.TableRow
                Items := cellSpans (Split inner BAR) (line.Indent + 1) }, m⟩ := by
  have hs : slice (BAR :: (inner ++ [x])) 1 (len (BAR :: (inner ++ [x])) - 1) = some inner := by
    unfold slice
    have hl : len (BAR :: (inner ++ [x])) = (inner.length : Int) + 2 := by
      simp only [len, List.length_cons, List.length_append, List.length_nil]
      push_cast
      ring
    rw [if_pos (by rw [hl]; omega)]
    have h1 : (len (BAR :: (inner ++ [x])) - 1).toNat = inner.length + 1 := by
      rw [hl]; omega
    rw [h1]
    simp
  unfold matcher.MatchTableRow
  rw [if_pos hstart]
  simp only [ht, hs, Option.map_some', foldl_cellStep, List.nil_append]

theorem row_shape_closed (line : Line)
    (hstart : line.StartsWith TABLE_CELL_SEPARATOR = true)
    (hlen : 2 ≤ (Trim line.trimmedLineText SP).length)
    (hend : (Trim line.trimmedLineText SP).getLast? = some BAR) :
    ∃ inner trail, Trim line.trimmedLineText SP = BAR :: (inner ++ [BAR]) ∧
      line.trimmedLineText = BAR :: (inner ++ [BAR]) ++ trail := by
  obtain ⟨inner, x, trail, ht, htr⟩ := row_shape line hstart hlen
  have hx : x = BAR := by
    rw [ht] at hend
    have : (BAR :: (inner ++ [x])).getLast? = some x := by
      rw [← List.cons_append, List.getLast?_append]
      simp
    rw [this] at hend
    exact Option.some.inj hend
  subst hx
  exact ⟨inner, trail, ht, htr⟩

/-- Claim C7. On a line whose trimmed text starts with `'|'` and whose
space-trimmed text `t` has at least two bytes and ends with `'|'`,
`MatchTableRow` matches with a table-row token; the number of its cell spans
is the number of `'|'` in `t` minus one, and the texts of the spans are, in
order, the space-trimmed segments of `t` between consecutive `'|'` (the
fragments of `strings.Split(t, "|")` without the first and the last); a
segment that is empty or all spaces gives a span with empty text. -/
theorem MatchTableRow_cell_texts (m : matcher) (line : Line)
    (hstart : line.StartsWith TABLE_CELL_SEPARATOR = true)
    (hlen : 2 ≤ (Trim line.trimmedLineText SP).length)
    (hend : (Trim line.trimmedLineText SP).getLast? = some BAR) :
    ∃ tok, m.MatchTableRow line = some ⟨none, true, some tok, m⟩ ∧
      tok.Type_ = TokenType.TableRow ∧
      tok.Items.length + 1 = (Trim line.trimmedLineText SP).count BAR ∧
      tok.Items.map (fun sp => sp.Text) =
        ((Split (Trim line.trimmedLineText SP) BAR).tail.dropLast).map
          (fun f => Trim f SP) := by
  obtain ⟨inner, trail, ht, _⟩ := row_shape_closed line hstart hlen hend
  have hsplit : Split (BAR :: (inner ++ [BAR])) BAR = [] :: (Split inner BAR ++ [[]]) := by
    have h1 : Split (BAR :: (inner ++ [BAR])) BAR = [] :: Split (inner ++ [BAR]) BAR := by
      simp [Split]
    rw [h1, Split_append_sep]
    simp [Split]
  refine ⟨_, MatchTableRow_eq m line inner BAR hstart ht, rfl, ?_, ?_⟩
  · show (cellSpans (Split inner BAR) (line.Indent + 1)).length + 1 = _
    have hc := Split_length (Trim line.trimmedLineText SP) BAR
    rw [ht, hsplit] at hc
    have hl := congrArg List.length (cellSpans_text (Split inner BAR) (line.Indent + 1))
    simp only [List.length_map] at hl
    rw [ht, hl]
    simp only [List.length_cons, List.length_append, List.length_nil] at hc
    omega
  · show (cellSpans (Split inner BAR) (line.Indent + 1)).map (fun sp => sp.Text) = _
    rw [cellSpans_text, ht, hsplit]
    simp

/-- Witness of C7: `"| a | bb | |"` gives exactly three spans, with the texts
`"a"`, `"bb"` and `""`. -/
theorem MatchTableRow_cell_texts_witness :
    ∃ tok, sampleMatcher.MatchTableRow (mkLine 1 (lit "| a | bb | |"))
        = some ⟨none, true, some tok, sampleMatcher⟩ ∧
      tok.Items.length = 3 ∧
      tok.Items.map (fun sp => sp.Text) = [lit "a", lit "bb", lit ""] := by
  obtain ⟨tok, h1, _, h3, h4⟩ :=
    MatchTableRow_cell_texts sampleMatcher (mkLine 1 (lit "| a | bb | |"))
      (by decide) (by decide) (by decide)
  have hcount : (Trim (mkLine 1 (lit "| a | bb | |")).trimmedLineText SP).count BAR = 4 := by
    decide
  have htexts : ((Split (Trim (mkLine 1 (lit "| a | bb | |")).trimmedLineText SP)
      BAR).tail.dropLast).map (fun f => Trim f SP) = [lit "a", lit "bb", lit ""] := by
    decide
  exact ⟨tok, h1, by omega, by rw [h4, htexts]⟩

/-- Claim C8. On a line whose indent is the number of bytes stripped from the
raw text, whose trimmed text starts with `'|'` and whose space-trimmed text
has at least two bytes and ends with `'|'`, `MatchTableRow` matches; with
`cells` the split of the text between the first and the last `'|'`, there are
as many spans as cells, and the span `i` belongs to the cell `i`: the trimmed
text is `'|'`, the cells before `i` each with its delimiter, the cell `i`, and
a rest, so the cell stands at the offset one plus the bytes of the cells
before it with their delimiters; the span's text is the space-trimmed cell,
its column is the indent plus that offset plus the number of leading spaces of
the cell plus one, and the raw line holds the span's text at the 1-based
position `Column`. -/
theorem MatchTableRow_cell_columns (m : matcher) (line : Line)
    (hind : line.IndentIsStripped)
    (hstart : line.StartsWith TABLE_CELL_SEPARATOR = true)
    (hlen : 2 ≤ (Trim line.trimmedLineText SP).length)
    (hend : (Trim line.trimmedLineText SP).getLast? = some BAR) :
    ∃ tok inner trail, m.MatchTableRow line = some ⟨none, true, some tok, m⟩ ∧
      Trim line.trimmedLineText SP = BAR :: (inner ++ [BAR]) ∧
      line.trimmedLineText = BAR :: (inner ++ [BAR]) ++ trail ∧
      tok.Items = cellSpans (Split inner BAR) (line.Indent + 1) ∧
      tok.Items.length = (Split inner BAR).length ∧
      ∀ (i : Nat) (sp : LineSpan), tok.Items[i]? = some sp →
        ∃ cell, (Split inner BAR)[i]? = some cell ∧
          line.trimmedLineText
            = (BAR :: textBefore BAR (Split inner BAR) i) ++ cell
                ++ (((Split inner BAR).drop (i + 1)).flatMap (fun g => BAR :: g)
                      ++ BAR :: trail) ∧
          sp.Text = Trim cell SP ∧
          sp.Column = line.Indent + len (BAR :: textBefore BAR (Split inner BAR) i)
                        + leadingSpaces cell + 1 ∧
          1 ≤ sp.Column ∧
          (line.lineText.drop (sp.Column - 1).toNat).take sp.Text.length = sp.Text := by
  obtain ⟨inner, trail, ht, htr⟩ := row_shape_closed line hstart hlen hend
  obtain ⟨pre, hpre, hindent⟩ := hind
  refine ⟨_, inner, trail, MatchTableRow_eq m line inner BAR hstart ht, ht, htr, rfl,
    cellSpans_length _ _, ?_⟩
  intro i sp hsp
  change (cellSpans (Split inner BAR) (line.Indent + 1))[i]? = some sp at hsp
  have hi : i < (Split inner BAR).length := by
    have := (List.getElem?_eq_some_iff.mp hsp).1
    rwa [cellSpans_length] at this
  have hcell : (Split inner BAR)[i]? = some ((Split inner BAR)[i]) :=
    List.getElem?_eq_getElem hi
  have hspan := cellSpans_getElem (Split inner BAR) (line.Indent + 1) i _ hcell
  rw [hsp] at hspan
  have hsp2 := Option.some.inj hspan
  have hdec := Split_decompose inner BAR i _ hcell
  have htrim : line.trimmedLineText
      = (BAR :: textBefore BAR (Split inner BAR) i) ++ (Split inner BAR)[i]
          ++ (((Split inner BAR).drop (i + 1)).flatMap (fun g => BAR :: g) ++ BAR :: trail) := by
    rw [htr]
    conv_lhs => rw [hdec]
    simp
  obtain ⟨tl3, hf3⟩ := Trim_spec ((Split inner BAR)[i])
  have h0 := leadingSpaces_nonneg ((Split inner BAR)[i])
  have hcol : sp.Column = line.Indent + len (BAR :: textBefore BAR (Split inner BAR) i)
      + leadingSpaces ((Split inner BAR)[i]) + 1 := by
    rw [hsp2]
    simp only [len, List.length_cons]
    push_cast
    ring
  have htext : sp.Text = Trim ((Split inner BAR)[i]) SP := by rw [hsp2]
  have hpos : (sp.Column - 1).toNat
      = (pre ++ (BAR :: textBefore BAR (Split inner BAR) i)
          ++ List.replicate (leadingSpaces ((Split inner BAR)[i])).toNat SP).length := by
    rw [hcol, hindent]
    simp only [len, List.length_append, List.length_replicate, List.length_cons]
    omega
  refine ⟨_, hcell, htrim, htext, hcol, ?_, ?_⟩
  · rw [hcol, hindent]
    simp only [len]
    omega
  · have hfull : line.lineText
        = (pre ++ (BAR :: textBefore BAR (Split inner BAR) i)
            ++ List.replicate (leadingSpaces ((Split inner BAR)[i])).toNat SP)
            ++ (sp.Text ++ (tl3 ++ (((Split inner BAR).drop (i + 1)).flatMap
                  (fun g => BAR :: g) ++ BAR :: trail))) := by
      rw [hpre, htrim, htext]
      conv_lhs => rw [hf3]
      simp
    rw [hfull, hpos, List.drop_left, List.take_left]

/-- Witness of C8 on the indented row `"  | a | bb | |"`: the spans are at
the columns 5, 9 and 14. -/
theorem MatchTableRow_cell_columns_witness :
    ∃ tok, sampleMatcher.MatchTableRow (mkLine 1 (lit "  | a | bb | |"))
        = some ⟨none, true, some tok, sampleMatcher⟩ ∧
      tok.Items = [⟨5, lit "a"⟩, ⟨9, lit "bb"⟩, ⟨14, lit ""⟩] ∧
      ∀ (i : Nat) (sp : LineSpan), tok.Items[i]? = some sp → 1 ≤ sp.Column ∧
        ((mkLine 1 (lit "  | a | bb | |")).lineText.drop (sp.Column - 1).toNat).take
          sp.Text.length = sp.Text := by
  obtain ⟨tok, inner, trail, h1, h2, _, h4, _, h6⟩ :=
    MatchTableRow_cell_columns sampleMatcher (mkLine 1 (lit "  | a | bb | |"))
      ⟨lit "  ", by decide, by decide⟩ (by decide) (by decide) (by decide)
  have hinner : inner = lit " a | bb | " := by
    have h : Trim (mkLine 1 (lit "  | a | bb | |")).trimmedLineText SP
        = BAR :: (lit " a | bb | " ++ [BAR]) := by decide
    rw [h] at h2
    have h3 := List.tail_eq_of_cons_eq h2
    exact (List.append_inj_left' h3 rfl).symm
  refine ⟨tok, h1, ?_, ?_⟩
  · rw [h4, hinner]
    decide
  · intro i sp hsp
    obtain ⟨_, _, _, _, _, h5, h7⟩ := h6 i sp hsp
    exact ⟨h5, h7⟩

/-- Claim C9. On every line on which `MatchTableRow` returns a token, the
columns of the cell spans of the token, in list order, are strictly
increasing. -/
theorem MatchTableRow_columns_increasing (m : matcher) (line : Line) (r : Outcome)
    (tok : Token) (hr : m.MatchTableRow line = some r) (htok : r.token = some tok) :
    (tok.Items.map (fun sp => sp.Column)).Pairwise (fun a b => a < b) := by
  unfold matcher.MatchTableRow at hr
  by_cases hstart : line.StartsWith TABLE_CELL_SEPARATOR = true
  · rw [if_pos hstart] at hr
    cases hs : slice (Trim line.trimmedLineText SP) 1 (len (Trim line.trimmedLineText SP) - 1) with
    | none => simp [hs] at hr
    | some inner =>
      simp only [hs, Option.map_some', Option.some.injEq, foldl_cellStep,
        List.nil_append] at hr
      subst hr
      simp only [Option.some.injEq] at htok
      subst htok
      exact cellSpans_increasing _ _
  · rw [if_neg hstart] at hr
    simp only [Option.some.injEq] at hr
    subst hr
    simp [decline] at htok

/-- Witness of C9: the columns of `"  | a |  | bb | |"` are 5, 10, 12, 17. -/
theorem MatchTableRow_columns_increasing_witness :
    ([⟨5, lit "a"⟩, ⟨10, lit ""⟩, ⟨12, lit "bb"⟩, ⟨17, lit ""⟩].map
      (fun sp : LineSpan => sp.Column)).Pairwise (fun a b => a < b) :=
  MatchTableRow_columns_increasing sampleMatcher (mkLine 1 (lit "  | a |  | bb | |"))
    ⟨none, true, some { sampleMatcher.newTokenAtLocation 1 2 with
        Type_ := TokenType.TableRow
        Items := [⟨5, lit "a"⟩, ⟨10, lit ""⟩, ⟨12, lit "bb"⟩, ⟨17, lit ""⟩] }, sampleMatcher⟩
    _ rfl rfl

/-! ## `MatchLanguage` -/

theorem dropWhile_append_stop {p : Nat → Bool} (w r : GoString)
    (hw : ∀ b ∈ w, p b = true) (hr : ∀ x, r.head? = some x → p x = false) :
    (w ++ r).dropWhile p = r := by
  induction w with
  | nil =>
    cases r with
    | nil => rfl
    | cons x r => simp [List.dropWhile_cons, hr x rfl]
  | cons b w ih =>
    have hb : p b = true := hw b (by simp)
    simp only [List.cons_append, List.dropWhile_cons, hb, if_true]
    exact ih (fun b hb => hw b (List.mem_cons_of_mem _ hb))

theorem takeWhile_append_stop {p : Nat → Bool} (w r : GoString)
    (hw : ∀ b ∈ w, p b = true) (hr : ∀ x, r.head? = some x → p x = false) :
    (w ++ r).takeWhile p = w := by
  induction w with
  | nil =>
    cases r with
    | nil => rfl
    | cons x r => simp [List.takeWhile_cons, hr x rfl]
  | cons b w ih =>
    have hb : p b = true := hw b (by simp)
    simp only [List.cons_append, List.takeWhile_cons, hb, if_true]
    rw [ih (fun b hb => hw b (List.mem_cons_of_mem _ hb))]

theorem expect_append (p r : GoString) : expect p (p ++ r) = some r := by
  unfold expect
  rw [if_pos (List.isPrefixOf_iff_prefix.mpr (List.prefix_append p r))]
  simp

theorem isCode_not_isSpace (b : Nat) (h : isCode b = true) : isSpace b = false := by
  simp only [isCode, Bool.or_eq_true, Bool.and_eq_true, decide_eq_true_eq, beq_iff_eq] at h
  simp only [isSpace, Bool.or_eq_false_iff, beq_eq_false_iff_ne, ne_eq]
  omega

theorem isSpace_not_isCode (b : Nat) (h : isSpace b = true) : isCode b = false := by
  cases hc : isCode b with
  | false => rfl
  | true => rw [isCode_not_isSpace b hc] at h; cases h

/-- The matcher of the pattern finds every text of the language of the
pattern, with its code as group 1. -/
theorem languagePattern_complete (s code : GoString) (h : MatchesLanguagePattern s code) :
    languagePattern s = [s, code] := by
  obtain ⟨w1, w2, w3, w4, w5, h1, h2, h3, h4, h5, hne, hcode, hs⟩ := h
  have hs2 : s = w1 ++ (lit "#" ++ (w2 ++ (lit "language" ++ (w3 ++ (lit ":" ++
      (w4 ++ (code ++ w5))))))) := by
    rw [hs]; simp only [List.append_assoc]
  have e1 : s.dropWhile isSpace = lit "#" ++ (w2 ++ (lit "language" ++ (w3 ++ (lit ":" ++
      (w4 ++ (code ++ w5)))))) := by
    rw [hs2]
    exact dropWhile_append_stop _ _ h1 (by intro x hx; cases hx; decide)
  have e2 : (w2 ++ (lit "language" ++ (w3 ++ (lit ":" ++ (w4 ++ (code ++ w5)))))).dropWhile
      isSpace = lit "language" ++ (w3 ++ (lit ":" ++ (w4 ++ (code ++ w5)))) :=
    dropWhile_append_stop _ _ h2 (by intro x hx; cases hx; decide)
  have e3 : (w3 ++ (lit ":" ++ (w4 ++ (code ++ w5)))).dropWhile isSpace
      = lit ":" ++ (w4 ++ (code ++ w5)) :=
    dropWhile_append_stop _ _ h3 (by intro x hx; cases hx; decide)
  have e4 : (w4 ++ (code ++ w5)).dropWhile isSpace = code ++ w5 := by
    apply dropWhile_append_stop _ _ h4
    intro x hx
    cases code with
    | nil => exact absurd rfl hne
    | cons c0 cs =>
      simp only [List.cons_append, List.head?_cons, Option.some.injEq] at hx
      subst hx
      exact isCode_not_isSpace _ (hcode _ (by simp))
  have hw5 : ∀ x, w5.head? = some x → isCode x = false := by
    intro x hx
    cases w5 with
    | nil => cases hx
    | cons y ys =>
      simp only [List.head?_cons, Option.some.injEq] at hx
      subst hx
      exact isSpace_not_isCode _ (h5 _ (by simp))
  have e5 : (code ++ w5).takeWhile isCode = code := takeWhile_append_stop _ _ hcode hw5
  have e6 : (code ++ w5).dropWhile isCode = w5 := dropWhile_append_stop _ _ hcode hw5
  have e7 : w5.dropWhile isSpace = [] := List.dropWhile_eq_nil_iff.mpr h5
  unfold languagePattern
  simp only [e1, expect_append, e2, e3, e4, e5, e6, e7]
  simp [hne]

theorem expect_some {p x r : GoString} (h : expect p x = some r) : x = p ++ r := by
  unfold expect at h
  split at h
  · next hp =>
    have hpre : p <+: x := List.isPrefixOf_iff_prefix.mp hp
    simp only [Option.some.injEq] at h
    rw [← h]
    exact (List.prefix_iff_eq_append.mp hpre).symm
  · cases h

theorem mem_takeWhile_true {p : Nat → Bool} (l : GoString) :
    ∀ b ∈ l.takeWhile p, p b = true := by
  induction l with
  | nil => simp
  | cons a l ih =>
    intro b hb
    rw [List.takeWhile_cons] at hb
    split at hb
    · next ha =>
      rcases List.mem_cons.mp hb with rfl | hb
      · exact ha
      · exact ih b hb
    · simp at hb

/-- The matcher of the pattern returns the nil slice, or the text and a code
with which the text is in the language of the pattern. -/
theorem languagePattern_sound (s : GoString) :
    languagePattern s = [] ∨
      ∃ code, languagePattern s = [s, code] ∧ MatchesLanguagePattern s code := by
  unfold languagePattern
  split
  · exact Or.inl rfl
  · next s1 h1 =>
    split
    · exact Or.inl rfl
    · next s2 h2 =>
      split
      · exact Or.inl rfl
      · next s3 h3 =>
        simp only []
        split
        · next hc =>
          refine Or.inr ⟨_, rfl, s.takeWhile isSpace, s1.takeWhile isSpace,
            s2.takeWhile isSpace, s3.takeWhile isSpace,
            (s3.dropWhile isSpace).dropWhile isCode,
            mem_takeWhile_true _, mem_takeWhile_true _, mem_takeWhile_true _,
            mem_takeWhile_true _, List.dropWhile_eq_nil_iff.mp hc.2, hc.1,
            mem_takeWhile_true _, ?_⟩
          have a1 := expect_some h1
          have a2 := expect_some h2
          have a3 := expect_some h3
          have b0 := List.takeWhile_append_dropWhile isSpace s
          have b1 := List.takeWhile_append_dropWhile isSpace s1
          have b2 := List.takeWhile_append_dropWhile isSpace s2
          have b3 := List.takeWhile_append_dropWhile isSpace s3
          have b4 := List.takeWhile_append_dropWhile isCode (s3.dropWhile isSpace)
          simp only [List.append_assoc]
          rw [b4, b3, ← a3, b2, ← a2, b1, ← a1, b0]
        · exact Or.inl rfl

/-- Claim C10. On a line whose trimmed text matches the language directive
pattern with the code `c`, when the dialect provider has no dialect for `c`,
`MatchLanguage` returns `ok = true` with a token of type `Language` whose
text is `c`, located at the line number and the indent plus one, and also an
error whose message is `"Language not supported: "` followed by `c` and whose
location is the token's location (column 1 when the indent is 0); the matcher
state is unchanged, its `lang` and `dialect` in particular, so the step and
title recognizers do afterwards what they did before. -/
theorem MatchLanguage_unresolved (m : matcher) (line : Line) (c : GoString)
    (hpat : MatchesLanguagePattern line.trimmedLineText c) (hnone : m.gdp c = none) :
    ∃ r tok e, m.MatchLanguage line = some r ∧ r.ok = true ∧ r.token = some tok ∧
      tok.Type_ = TokenType.Language ∧ tok.Text = c ∧
      tok.Location = ⟨line.lineNumber, line.Indent + 1⟩ ∧
      r.err = some e ∧ e.msg = lit "Language not supported: " ++ c ∧
      e.loc = tok.Location ∧ (line.Indent = 0 → e.loc.Column = 1) ∧
      r.m = m ∧ r.m.lang = m.lang ∧ r.m.dialect = m.dialect ∧
      (∀ l, r.m.MatchStepLine l = m.MatchStepLine l) ∧
      (∀ l, r.m.MatchFeatureLine l = m.MatchFeatureLine l) ∧
      (∀ l, r.m.MatchScenarioLine l = m.MatchScenarioLine l) := by
  have hm : m.MatchLanguage line =
      some ⟨some ⟨lit "Language not supported: " ++ c, ⟨line.lineNumber, line.Indent + 1⟩⟩,
        true,
        some { m.newTokenAtLocation line.lineNumber line.Indent with
                Type_ := TokenType.Language, Text := c }, m⟩ := by
    unfold matcher.MatchLanguage
    simp only [languagePattern_complete _ _ hpat, List.length_cons, List.length_nil]
    simp [hnone, matcher.newTokenAtLocation]
  refine ⟨_, _, _, hm, rfl, rfl, rfl, rfl, rfl, rfl, rfl, rfl, ?_, rfl, rfl, rfl,
    fun _ => rfl, fun _ => rfl, fun _ => rfl⟩
  intro h0
  show line.Indent + 1 = 1
  rw [h0]
  rfl

/-- Witness of C10: `"# language: fr"` with a provider that has no `fr`. -/
theorem MatchLanguage_unresolved_witness :
    ∃ r tok e, sampleMatcher.MatchLanguage (mkLine 1 (lit "# language: fr")) = some r ∧
      r.ok = true ∧ r.token = some tok ∧ tok.Text = lit "fr" ∧
      r.err = some e ∧ e.msg = lit "Language not supported: fr" ∧ e.loc = ⟨1, 1⟩ ∧
      r.m.lang = lit "en" ∧ r.m.dialect = some sampleDialect := by
  obtain ⟨r, tok, e, h1, h2, h3, _, h5, h6, h7, h8, h9, _, h11, _⟩ :=
    MatchLanguage_unresolved sampleMatcher (mkLine 1 (lit "# language: fr")) (lit "fr")
      ⟨[], [32], [], [32], [], by decide, by decide, by decide, by decide, by decide,
        by decide, by decide, by decide⟩
      rfl
  refine ⟨r, tok, e, h1, h2, h3, h5, h7, ?_, ?_, ?_, ?_⟩
  · rw [h8]; decide
  · rw [h9, h6]; decide
  · rw [h11]; rfl
  · rw [h11]; rfl

/-! ## The state after a call -/

theorem directiveCode_of_pattern {line : Line} {c : GoString}
    (h : languagePattern line.trimmedLineText = [line.trimmedLineText, c]) :
    directiveCode line = some c := by
  unfold directiveCode
  rw [h]

theorem directiveCode_iff (line : Line) (c : GoString) :
    directiveCode line = some c ↔ MatchesLanguagePattern line.trimmedLineText c := by
  constructor
  · intro h
    rcases languagePattern_sound line.trimmedLineText with h0 | ⟨code, h1, h2⟩
    · simp [directiveCode, h0] at h
    · rw [directiveCode_of_pattern h1] at h
      cases h
      exact h2
  · intro h
    exact directiveCode_of_pattern (languagePattern_complete _ _ h)

theorem MatchLanguage_not_directive (m : matcher) (line : Line)
    (h : directiveCode line = none) : m.MatchLanguage line = some (decline m) := by
  rcases languagePattern_sound line.trimmedLineText with h0 | ⟨code, h1, _⟩
  · unfold matcher.MatchLanguage
    simp [h0]
  · rw [directiveCode_of_pattern h1] at h
    cases h

theorem MatchLanguage_eq_resolved (m : matcher) (line : Line) (c : GoString)
    (d : GherkinDialect) (h : directiveCode line = some c) (hd : m.gdp c = some d) :
    m.MatchLanguage line =
      some ⟨none, true,
        some { m.newTokenAtLocation line.lineNumber line.Indent with
                Type_ := TokenType.Language, Text := c },
        { m with lang := c, dialect := some d }⟩ := by
  have hp := languagePattern_complete _ _ ((directiveCode_iff line c).mp h)
  unfold matcher.MatchLanguage
  simp only [hp, List.length_cons, List.length_nil]
  simp [hd]

theorem MatchLanguage_eq_unresolved (m : matcher) (line : Line) (c : GoString)
    (h : directiveCode line = some c) (hd : m.gdp c = none) :
    m.MatchLanguage line =
      some ⟨some ⟨lit "Language not supported: " ++ c, ⟨line.lineNumber, line.Indent + 1⟩⟩,
        true,
        some { m.newTokenAtLocation line.lineNumber line.Indent with
                Type_ := TokenType.Language, Text := c }, m⟩ := by
  have hp := languagePattern_complete _ _ ((directiveCode_iff line c).mp h)
  unfold matcher.MatchLanguage
  simp only [hp, List.length_cons, List.length_nil]
  simp [hd, matcher.newTokenAtLocation]

theorem hasPrefix_fence_drop (t f : GoString) (h : HasPrefix t f = true) :
    sliceFrom t (len f) = some (t.drop f.length) := by
  rw [sliceFrom_eq_drop _ _ (by simp [len]) (hasPrefix_len_le h)]
  simp [len]

theorem MatchDocStringSeparator_primary (m : matcher) (line : Line)
    (hclosed : m.activeDocStringSeparator = [])
    (hp : HasPrefix line.trimmedLineText DOCSTRING_SEPARATOR = true) :
    m.MatchDocStringSeparator line =
      some ⟨none, true,
        some { m.newTokenAtLocation line.lineNumber line.Indent with
                Type_ := TokenType.DocStringSeparator
                Text := line.trimmedLineText.drop 3 },
        { m with activeDocStringSeparator := DOCSTRING_SEPARATOR
                 indentToRemove := line.Indent }⟩ := by
  have hs := hasPrefix_fence_drop _ _ hp
  have hne : DOCSTRING_SEPARATOR ≠ [] := by rw [DOCSTRING_SEPARATOR_bytes]; simp
  unfold matcher.MatchDocStringSeparator
  rw [if_neg (by simp [hclosed])]
  simp only [Line.StartsWith, hp, if_true, ne_eq, hne, not_false_eq_true, hs, Option.map_some']
  rfl

theorem MatchDocStringSeparator_alternative (m : matcher) (line : Line)
    (hclosed : m.activeDocStringSeparator = [])
    (hnp : HasPrefix line.trimmedLineText DOCSTRING_SEPARATOR = false)
    (hp : HasPrefix line.trimmedLineText DOCSTRING_ALTERNATIVE_SEPARATOR = true) :
    m.MatchDocStringSeparator line =
      some ⟨none, true,
        some { m.newTokenAtLocation line.lineNumber line.Indent with
                Type_ := TokenType.DocStringSeparator
                Text := line.trimmedLineText.drop 3 },
        { m with activeDocStringSeparator := DOCSTRING_ALTERNATIVE_SEPARATOR
                 indentToRemove := line.Indent }⟩ := by
  have hs := hasPrefix_fence_drop _ _ hp
  have hne : DOCSTRING_ALTERNATIVE_SEPARATOR ≠ [] := by
    rw [DOCSTRING_ALTERNATIVE_SEPARATOR_bytes]; simp
  unfold matcher.MatchDocStringSeparator
  rw [if_neg (by simp [hclosed])]
  simp only [Line.StartsWith, hnp, hp, if_true, ne_eq, hne, not_false_eq_true, hs,
    Option.map_some', Bool.false_eq_true, if_false]
  rfl

theorem MatchDocStringSeparator_closed_decline (m : matcher) (line : Line)
    (hclosed : m.activeDocStringSeparator = [])
    (hnp : HasPrefix line.trimmedLineText DOCSTRING_SEPARATOR = false)
    (hna : HasPrefix line.trimmedLineText DOCSTRING_ALTERNATIVE_SEPARATOR = false) :
    m.MatchDocStringSeparator line = some (decline m) := by
  unfold matcher.MatchDocStringSeparator
  rw [if_neg (by simp [hclosed])]
  simp only [Line.StartsWith, hnp, hna, Bool.false_eq_true, if_false, hclosed, ne_eq,
    not_true_eq_false]

/-! ## Opening a docstring -/

/-- After a matcher is left with a docstring open on the fence `f` and the
indent `k` to remove, `MatchOther` on a content line keeps that state, and
`MatchDocStringSeparator` on a later line that starts with `f` closes. -/
theorem opened_then_content_then_close (m2 : matcher) (f : GoString) (k : Int)
    (hf : f = DOCSTRING_SEPARATOR ∨ f = DOCSTRING_ALTERNATIVE_SEPARATOR)
    (hsep : m2.activeDocStringSeparator = f) (hk : m2.indentToRemove = k)
    (content closing : Line) (hclose : HasPrefix closing.trimmedLineText f = true) :
    ∃ r2 r3, m2.MatchOther content = some r2 ∧ r2.ok = true ∧
      r2.m.indentToRemove = k ∧ r2.m.activeDocStringSeparator = f ∧
      r2.m.MatchDocStringSeparator closing = some r3 ∧ r3.ok = true ∧
      r3.m.activeDocStringSeparator = [] ∧ r3.m.indentToRemove = 0 := by
  have hne : m2.activeDocStringSeparator ≠ [] := by
    rw [hsep]
    rcases hf with rfl | rfl
    · rw [DOCSTRING_SEPARATOR_bytes]; simp
    · rw [DOCSTRING_ALTERNATIVE_SEPARATOR_bytes]; simp
  exact ⟨_, _, MatchOther_eq m2 content, rfl, hk, hsep,
    MatchDocStringSeparator_close m2 closing hne (by rw [hsep]; exact hclose), rfl, rfl, rfl⟩

/-- Claim C12. In a closed state (`activeDocStringSeparator = ""`), on a line
whose trimmed text starts with the fence literal `f`, being `"""` or, if the
text does not start with that, the alternative literal, `MatchDocStringSeparator`
matches without an error: the token is a docstring-separator token whose text
is the trimmed text after the three bytes of the literal, and the state left
has `activeDocStringSeparator = f` and `indentToRemove` equal to the indent of
this opening line, `lang` and `dialect` as before.  From that state
`MatchOther` on any content line leaves `indentToRemove` at the opening line's
indent, and `MatchDocStringSeparator` on a later line that starts with `f`
closes.  On a line that starts with neither literal it declines, with no token
and the state unchanged, so still closed. -/
theorem docstring_opening_transition (m : matcher) (line : Line)
    (hclosed : m.activeDocStringSeparator = []) :
    (∀ f,
      (f = DOCSTRING_SEPARATOR ∧ HasPrefix line.trimmedLineText DOCSTRING_SEPARATOR = true) ∨
      (f = DOCSTRING_ALTERNATIVE_SEPARATOR ∧
        HasPrefix line.trimmedLineText DOCSTRING_SEPARATOR = false ∧
        HasPrefix line.trimmedLineText DOCSTRING_ALTERNATIVE_SEPARATOR = true) →
      ∃ r tok, m.MatchDocStringSeparator line = some r ∧ r.ok = true ∧ r.err = none ∧
        r.token = some tok ∧ tok.Type_ = TokenType.DocStringSeparator ∧
        tok.Text = line.trimmedLineText.drop 3 ∧ f ++ tok.Text = line.trimmedLineText ∧
        tok.Location = ⟨line.lineNumber, line.Indent + 1⟩ ∧
        r.m.activeDocStringSeparator = f ∧ r.m.indentToRemove = line.Indent ∧
        r.m.lang = m.lang ∧ r.m.dialect = m.dialect ∧
        ∀ content closing, HasPrefix closing.trimmedLineText f = true →
          ∃ r2 r3, r.m.MatchOther content = some r2 ∧ r2.ok = true ∧
            r2.m.indentToRemove = line.Indent ∧ r2.m.activeDocStringSeparator = f ∧
            r2.m.MatchDocStringSeparator closing = some r3 ∧ r3.ok = true ∧
            r3.m.activeDocStringSeparator = [] ∧ r3.m.indentToRemove = 0) ∧
    (HasPrefix line.trimmedLineText DOCSTRING_SEPARATOR = false →
      HasPrefix line.trimmedLineText DOCSTRING_ALTERNATIVE_SEPARATOR = false →
      ∃ r, m.MatchDocStringSeparator line = some r ∧ r.ok = false ∧ r.token = none ∧
        r.err = none ∧ r.m = m ∧ r.m.activeDocStringSeparator = []) := by
  constructor
  · intro f hf
    rcases hf with ⟨rfl, hp⟩ | ⟨rfl, hnp, hp⟩
    · have hpre : DOCSTRING_SEPARATOR <+: line.trimmedLineText :=
        List.isPrefixOf_iff_prefix.mp hp
      have hlen : DOCSTRING_SEPARATOR.length = 3 := by rw [DOCSTRING_SEPARATOR_bytes]; rfl
      refine ⟨_, _, MatchDocStringSeparator_primary m line hclosed hp, rfl, rfl, rfl, rfl,
        rfl, ?_, rfl, rfl, rfl, rfl, rfl, ?_⟩
      · have := List.prefix_iff_eq_append.mp hpre
        rw [hlen] at this
        exact this
      · intro content closing hclose
        exact opened_then_content_then_close _ _ _ (Or.inl rfl) rfl rfl content closing hclose
    · have hpre : DOCSTRING_ALTERNATIVE_SEPARATOR <+: line.trimmedLineText :=
        List.isPrefixOf_iff_prefix.mp hp
      have hlen : DOCSTRING_ALTERNATIVE_SEPARATOR.length = 3 := by
        rw [DOCSTRING_ALTERNATIVE_SEPARATOR_bytes]; rfl
      refine ⟨_, _, MatchDocStringSeparator_alternative m line hclosed hnp hp, rfl, rfl,
        rfl, rfl, rfl, ?_, rfl, rfl, rfl, rfl, rfl, ?_⟩
      · have := List.prefix_iff_eq_append.mp hpre
        rw [hlen] at this
        exact this
      · intro content closing hclose
        exact opened_then_content_then_close _ _ _ (Or.inr rfl) rfl rfl content closing hclose
  · intro hnp hna
    exact ⟨_, MatchDocStringSeparator_closed_decline m line hclosed hnp hna, rfl, rfl, rfl, rfl,
      hclosed⟩

/-- Witness of C12: the opening line `"  \"\"\"text"` (indent 2), the content
line `"     content"` (indent 5) and the closing line `"  \"\"\""`. -/
theorem docstring_opening_transition_witness :
    ∃ r tok r2 r3, sampleMatcher.MatchDocStringSeparator (mkLine 1 (lit "  \"\"\"text")) = some r ∧
      r.token = some tok ∧ tok.Text = lit "text" ∧
      r.m.activeDocStringSeparator = DOCSTRING_SEPARATOR ∧ r.m.indentToRemove = 2 ∧
      r.m.MatchOther (mkLine 2 (lit "     content")) = some r2 ∧ r2.m.indentToRemove = 2 ∧
      r2.m.MatchDocStringSeparator (mkLine 3 (lit "  \"\"\"")) = some r3 ∧ r3.ok = true ∧
      r3.m.activeDocStringSeparator = [] ∧ r3.m.indentToRemove = 0 := by
  obtain ⟨r, tok, h1, _, _, h4, _, h6, _, _, h9, h10, _, _, h13⟩ :=
    (docstring_opening_transition sampleMatcher (mkLine 1 (lit "  \"\"\"text")) rfl).1
      DOCSTRING_SEPARATOR (Or.inl ⟨rfl, by decide⟩)
  obtain ⟨r2, r3, g1, _, g3, _, g5, g6, g7, g8⟩ :=
    h13 (mkLine 2 (lit "     content")) (mkLine 3 (lit "  \"\"\"")) (by decide)
  refine ⟨r, tok, r2, r3, h1, h4, ?_, h9, ?_, g1, ?_, g5, g6, g7, g8⟩
  · rw [h6]; decide
  · rw [h10]; decide
  · rw [g3]; decide

/-! ## What a call leaves of the state, and the stamp of its token -/

theorem decline_frame (m : matcher) : Frame m (decline m) :=
  ⟨rfl, fun _ h => by cases h⟩

theorem MatchEOF_frame (m : matcher) (line : Line) : Frame m (m.MatchEOF line) := by
  unfold matcher.MatchEOF
  split
  · exact ⟨rfl, fun tok h => by cases h; rfl⟩
  · exact decline_frame m

theorem MatchEmpty_frame (m : matcher) (line : Line) : Frame m (m.MatchEmpty line) := by
  unfold matcher.MatchEmpty
  split
  · exact ⟨rfl, fun tok h => by cases h; rfl⟩
  · exact decline_frame m

theorem MatchComment_frame (m : matcher) (line : Line) : Frame m (m.MatchComment line) := by
  unfold matcher.MatchComment
  split
  · exact ⟨rfl, fun tok h => by cases h; rfl⟩
  · exact decline_frame m

theorem MatchTagLine_frame (m : matcher) (line : Line) : Frame m (m.MatchTagLine line) := by
  unfold matcher.MatchTagLine
  split
  · exact ⟨rfl, fun tok h => by cases h; rfl⟩
  · exact decline_frame m

theorem matchTitleLine_frame (m : matcher) (line : Line) (tokenType : TokenType)
    (ks : List GoString) (r : Outcome) (h : m.matchTitleLine line tokenType ks = some r) :
    Frame m r := by
  obtain ⟨r0, hr0, hm, _, hcases⟩ := matchTitleLine_spec m line tokenType ks
  rw [hr0] at h
  cases h
  refine ⟨hm, ?_⟩
  intro tok htok
  rcases hcases with ⟨_, hnone, _⟩ | ⟨_, _, _, _, _, hsome⟩
  · rw [hnone] at htok; cases htok
  · rw [hsome] at htok; cases htok; rfl

theorem stepLoop_frame (m : matcher) (line : Line) (ks : List GoString) (r : Outcome)
    (h : m.stepLoop line ks = some r) : Frame m r := by
  obtain ⟨r0, hr0, hm, _, hcases⟩ := stepLoop_spec m line ks
  rw [hr0] at h
  cases h
  refine ⟨hm, ?_⟩
  intro tok htok
  rcases hcases with ⟨_, hnone, _⟩ | ⟨_, _, _, _, _, hsome⟩
  · rw [hnone] at htok; cases htok
  · rw [hsome] at htok; cases htok; rfl

theorem MatchTableRow_frame (m : matcher) (line : Line) (r : Outcome)
    (h : m.MatchTableRow line = some r) : Frame m r := by
  unfold matcher.MatchTableRow at h
  split at h
  · cases hs : slice (Trim line.trimmedLineText SP) 1 (len (Trim line.trimmedLineText SP) - 1) with
    | none => simp [hs] at h
    | some inner =>
      simp only [hs, Option.map_some', Option.some.injEq] at h
      subst h
      exact ⟨rfl, fun tok h => by cases h; rfl⟩
  · cases h
    exact decline_frame m

theorem MatchOther_frame (m : matcher) (line : Line) (r : Outcome)
    (h : m.MatchOther line = some r) : Frame m r := by
  rw [MatchOther_eq] at h
  cases h
  exact ⟨rfl, fun tok h => by cases h; rfl⟩

theorem bind_dialect_frame (m : matcher) (g : GherkinDialect → Option Outcome) (r : Outcome)
    (hg : ∀ d r, g d = some r → Frame m r) (h : m.dialect.bind g = some r) : Frame m r := by
  cases hd : m.dialect with
  | none => rw [hd] at h; cases h
  | some d => rw [hd] at h; exact hg d r h

/-- Every recognizer other than `MatchLanguage` and `MatchDocStringSeparator`
leaves the state as it was and stamps its token with the matcher's `lang`. -/
theorem call_frame (m : matcher) (rec : Recognizer) (line : Line) (r : Outcome)
    (hL : rec ≠ Recognizer.Language) (hD : rec ≠ Recognizer.DocStringSeparator)
    (h : m.call rec line = some r) : Frame m r := by
  cases rec with
  | EOF => cases h; exact MatchEOF_frame m line
  | Empty => cases h; exact MatchEmpty_frame m line
  | Comment => cases h; exact MatchComment_frame m line
  | TagLine => cases h; exact MatchTagLine_frame m line
  | FeatureLine =>
    exact bind_dialect_frame m _ r (fun d r h => matchTitleLine_frame m line _ _ r h) h
  | BackgroundLine =>
    exact bind_dialect_frame m _ r (fun d r h => matchTitleLine_frame m line _ _ r h) h
  | ScenarioLine =>
    exact bind_dialect_frame m _ r (fun d r h => matchTitleLine_frame m line _ _ r h) h
  | ScenarioOutlineLine =>
    exact bind_dialect_frame m _ r (fun d r h => matchTitleLine_frame m line _ _ r h) h
  | ExamplesLine =>
    exact bind_dialect_frame m _ r (fun d r h => matchTitleLine_frame m line _ _ r h) h
  | StepLine =>
    exact bind_dialect_frame m _ r (fun d r h => stepLoop_frame m line _ r h) h
  | DocStringSeparator => exact absurd rfl hD
  | TableRow => exact MatchTableRow_frame m line r h
  | Language => exact absurd rfl hL
  | Other => exact MatchOther_frame m line r h

/-- The three results of `MatchLanguage`. -/
theorem MatchLanguage_cases (m : matcher) (line : Line) (r : Outcome)
    (h : m.MatchLanguage line = some r) :
    (directiveCode line = none ∧ r = decline m) ∨
    (∃ c, directiveCode line = some c ∧ m.gdp c = none ∧ r.ok = true ∧ r.m = m ∧
      r.token = some { m.newTokenAtLocation line.lineNumber line.Indent with
                        Type_ := TokenType.Language, Text := c }) ∨
    (∃ c d, directiveCode line = some c ∧ m.gdp c = some d ∧ r.ok = true ∧
      r.m = { m with lang := c, dialect := some d } ∧
      r.token = some { m.newTokenAtLocation line.lineNumber line.Indent with
                        Type_ := TokenType.Language, Text := c }) := by
  cases hc : directiveCode line with
  | none =>
    rw [MatchLanguage_not_directive m line hc] at h
    cases h
    exact Or.inl ⟨rfl, rfl⟩
  | some c =>
    cases hd : m.gdp c with
    | none =>
      rw [MatchLanguage_eq_unresolved m line c hc hd] at h
      cases h
      exact Or.inr (Or.inl ⟨c, rfl, hd, rfl, rfl, rfl⟩)
    | some d =>
      rw [MatchLanguage_eq_resolved m line c d hc hd] at h
      cases h
      exact Or.inr (Or.inr ⟨c, d, rfl, hd, rfl, rfl, rfl⟩)

/-- The four results of `MatchDocStringSeparator`. -/
theorem MatchDocStringSeparator_cases (m : matcher) (line : Line) (r : Outcome)
    (h : m.MatchDocStringSeparator line = some r) :
    r = decline m ∨
    (m.activeDocStringSeparator ≠ [] ∧ r.ok = true ∧
      r.m = { m with indentToRemove := 0, activeDocStringSeparator := [] } ∧
      r.token = some { m.newTokenAtLocation line.lineNumber line.Indent with
                        Type_ := TokenType.DocStringSeparator }) ∨
    (m.activeDocStringSeparator = [] ∧ r.ok = true ∧
      ∃ f, (f = DOCSTRING_SEPARATOR ∨ f = DOCSTRING_ALTERNATIVE_SEPARATOR) ∧
        r.m = { m with activeDocStringSeparator := f, indentToRemove := line.Indent } ∧
        r.token = some { m.newTokenAtLocation line.lineNumber line.Indent with
                          Type_ := TokenType.DocStringSeparator
                          Text := line.trimmedLineText.drop 3 }) := by
  by_cases hne : m.activeDocStringSeparator = []
  · cases hp : HasPrefix line.trimmedLineText DOCSTRING_SEPARATOR with
    | true =>
      rw [MatchDocStringSeparator_primary m line hne hp] at h
      cases h
      exact Or.inr (Or.inr ⟨hne, rfl, _, Or.inl rfl, rfl, rfl⟩)
    | false =>
      cases ha : HasPrefix line.trimmedLineText DOCSTRING_ALTERNATIVE_SEPARATOR with
      | true =>
        rw [MatchDocStringSeparator_alternative m line hne hp ha] at h
        cases h
        exact Or.inr (Or.inr ⟨hne, rfl, _, Or.inr rfl, rfl, rfl⟩)
      | false =>
        rw [MatchDocStringSeparator_closed_decline m line hne hp ha] at h
        cases h
        exact Or.inl rfl
  · cases hp : line.StartsWith m.activeDocStringSeparator with
    | true =>
      rw [MatchDocStringSeparator_close m line hne hp] at h
      cases h
      exact Or.inr (Or.inl ⟨hne, rfl, rfl, rfl⟩)
    | false =>
      rw [MatchDocStringSeparator_stay m line hne hp] at h
      cases h
      exact Or.inl rfl

theorem MatchLanguage_returns (m : matcher) (line : Line) :
    ∃ r, m.MatchLanguage line = some r := by
  cases hc : directiveCode line with
  | none => exact ⟨_, MatchLanguage_not_directive m line hc⟩
  | some c =>
    cases hd : m.gdp c with
    | none => exact ⟨_, MatchLanguage_eq_unresolved m line c hc hd⟩
    | some d => exact ⟨_, MatchLanguage_eq_resolved m line c d hc hd⟩

theorem MatchDocStringSeparator_returns (m : matcher) (line : Line) :
    ∃ r, m.MatchDocStringSeparator line = some r := by
  by_cases hne : m.activeDocStringSeparator = []
  · cases hp : HasPrefix line.trimmedLineText DOCSTRING_SEPARATOR with
    | true => exact ⟨_, MatchDocStringSeparator_primary m line hne hp⟩
    | false =>
      cases ha : HasPrefix line.trimmedLineText DOCSTRING_ALTERNATIVE_SEPARATOR with
      | true => exact ⟨_, MatchDocStringSeparator_alternative m line hne hp ha⟩
      | false => exact ⟨_, MatchDocStringSeparator_closed_decline m line hne hp ha⟩
  · cases hp : line.StartsWith m.activeDocStringSeparator with
    | true => exact ⟨_, MatchDocStringSeparator_close m line hne hp⟩
    | false => exact ⟨_, MatchDocStringSeparator_stay m line hne hp⟩

/-- Claim C17. For every line and state: `MatchEOF`, `MatchEmpty`,
`MatchComment`, `MatchTagLine`, the five title-line recognizers,
`MatchStepLine`, `MatchTableRow` and `MatchOther` leave the whole state (`lang`,
`dialect`, `activeDocStringSeparator`, `indentToRemove`, and the provider) as
it was whenever they return.  `MatchLanguage` always returns and never changes
`activeDocStringSeparator` or `indentToRemove`; `MatchDocStringSeparator`
always returns and never changes `lang` or `dialect`; and each of the two
leaves the whole state unchanged when it declines (`ok = false`). -/
theorem state_mutation_confined (m : matcher) (line : Line) :
    (m.MatchEOF line).m = m ∧ (m.MatchEmpty line).m = m ∧
    (m.MatchComment line).m = m ∧ (m.MatchTagLine line).m = m ∧
    (∀ r, m.MatchFeatureLine line = some r → r.m = m) ∧
    (∀ r, m.MatchBackgroundLine line = some r → r.m = m) ∧
    (∀ r, m.MatchScenarioLine line = some r → r.m = m) ∧
    (∀ r, m.MatchScenarioOutlineLine line = some r → r.m = m) ∧
    (∀ r, m.MatchExamplesLine line = some r → r.m = m) ∧
    (∀ r, m.MatchStepLine line = some r → r.m = m) ∧
    (∀ r, m.MatchTableRow line = some r → r.m = m) ∧
    (∃ r, m.MatchOther line = some r ∧ r.m = m) ∧
    (∃ r, m.MatchLanguage line = some r ∧
      r.m.activeDocStringSeparator = m.activeDocStringSeparator ∧
      r.m.indentToRemove = m.indentToRemove ∧ r.m.gdp = m.gdp ∧
      (r.ok = false → r.m = m)) ∧
    (∃ r, m.MatchDocStringSeparator line = some r ∧
      r.m.lang = m.lang ∧ r.m.dialect = m.dialect ∧ r.m.gdp = m.gdp ∧
      (r.ok = false → r.m = m)) := by
  refine ⟨(MatchEOF_frame m line).1, (MatchEmpty_frame m line).1, (MatchComment_frame m line).1,
    (MatchTagLine_frame m line).1,
    fun r h => (call_frame m Recognizer.FeatureLine line r (by decide) (by decide) h).1,
    fun r h => (call_frame m Recognizer.BackgroundLine line r (by decide) (by decide) h).1,
    fun r h => (call_frame m Recognizer.ScenarioLine line r (by decide) (by decide) h).1,
    fun r h => (call_frame m Recognizer.ScenarioOutlineLine line r (by decide) (by decide) h).1,
    fun r h => (call_frame m Recognizer.ExamplesLine line r (by decide) (by decide) h).1,
    fun r h => (call_frame m Recognizer.StepLine line r (by decide) (by decide) h).1,
    fun r h => (call_frame m Recognizer.TableRow line r (by decide) (by decide) h).1,
    ⟨_, MatchOther_eq m line, rfl⟩, ?_, ?_⟩
  · obtain ⟨r, hr⟩ := MatchLanguage_returns m line
    refine ⟨r, hr, ?_⟩
    rcases MatchLanguage_cases m line r hr with ⟨_, rfl⟩ | ⟨c, _, _, hok, hm, _⟩ |
      ⟨c, d, _, _, hok, hm, _⟩
    · exact ⟨rfl, rfl, rfl, fun _ => rfl⟩
    · rw [hm]; exact ⟨rfl, rfl, rfl, fun _ => rfl⟩
    · rw [hm]
      refine ⟨rfl, rfl, rfl, ?_⟩
      intro h; rw [hok] at h; cases h
  · obtain ⟨r, hr⟩ := MatchDocStringSeparator_returns m line
    refine ⟨r, hr, ?_⟩
    rcases MatchDocStringSeparator_cases m line r hr with rfl | ⟨_, hok, hm, _⟩ |
      ⟨_, hok, f, _, hm, _⟩
    · exact ⟨rfl, rfl, rfl, fun _ => rfl⟩
    · rw [hm]
      refine ⟨rfl, rfl, rfl, ?_⟩
      intro h; rw [hok] at h; cases h
    · rw [hm]
      refine ⟨rfl, rfl, rfl, ?_⟩
      intro h; rw [hok] at h; cases h

/-! ## Invariants of the reachable states -/

/-- The state after a call: unchanged, or with a resolved language, or with
the docstring closed, or with a docstring opened at the indent of the line. -/
theorem call_state (m : matcher) (rec : Recognizer) (line : Line) (r : Outcome)
    (h : m.call rec line = some r) :
    r.m = m ∨
    (∃ c d, m.gdp c = some d ∧ r.m = { m with lang := c, dialect := some d }) ∨
    r.m = { m with indentToRemove := 0, activeDocStringSeparator := [] } ∨
    (m.activeDocStringSeparator = [] ∧
      ∃ f, (f = DOCSTRING_SEPARATOR ∨ f = DOCSTRING_ALTERNATIVE_SEPARATOR) ∧
        r.m = { m with activeDocStringSeparator := f, indentToRemove := line.Indent }) := by
  by_cases hL : rec = Recognizer.Language
  · subst hL
    rcases MatchLanguage_cases m line r h with ⟨_, rfl⟩ | ⟨c, _, _, _, hm, _⟩ |
      ⟨c, d, _, hd, _, hm, _⟩
    · exact Or.inl rfl
    · exact Or.inl hm
    · exact Or.inr (Or.inl ⟨c, d, hd, hm⟩)
  · by_cases hD : rec = Recognizer.DocStringSeparator
    · subst hD
      rcases MatchDocStringSeparator_cases m line r h with rfl | ⟨_, _, hm, _⟩ |
        ⟨hc, _, f, hf, hm, _⟩
      · exact Or.inl rfl
      · exact Or.inr (Or.inr (Or.inl hm))
      · exact Or.inr (Or.inr (Or.inr ⟨hc, f, hf, hm⟩))
    · exact Or.inl (call_frame m rec line r hL hD h).1

theorem run_cons_some {m m' : matcher} {rec : Recognizer} {line : Line}
    {calls : List (Recognizer × Line)} (h : m.run ((rec, line) :: calls) = some m') :
    ∃ r, m.call rec line = some r ∧ r.m.run calls = some m' := by
  simp only [matcher.run] at h
  cases hc : m.call rec line with
  | none => rw [hc] at h; cases h
  | some r => rw [hc] at h; exact ⟨r, rfl, h⟩

theorem NewMatcher_fenceInv (gdp : GherkinDialectProvider) : FenceInv (NewMatcher gdp) :=
  ⟨Or.inl rfl, fun _ => rfl⟩

theorem call_fenceInv (m : matcher) (rec : Recognizer) (line : Line) (r : Outcome)
    (h : m.call rec line = some r) (hinv : FenceInv m) : FenceInv r.m := by
  rcases call_state m rec line r h with hm | ⟨c, d, _, hm⟩ | hm | ⟨_, f, hf, hm⟩
  · rw [hm]; exact hinv
  · rw [hm]; exact hinv
  · rw [hm]; exact ⟨Or.inl rfl, fun _ => rfl⟩
  · rw [hm]
    refine ⟨Or.inr hf, ?_⟩
    intro h0
    exfalso
    change f = [] at h0
    rcases hf with rfl | rfl
    · rw [DOCSTRING_SEPARATOR_bytes] at h0; cases h0
    · rw [DOCSTRING_ALTERNATIVE_SEPARATOR_bytes] at h0; cases h0

theorem run_fenceInv (calls : List (Recognizer × Line)) (m m' : matcher)
    (h : m.run calls = some m') (hinv : FenceInv m) : FenceInv m' := by
  induction calls generalizing m with
  | nil => cases h; exact hinv
  | cons call calls ih =>
    obtain ⟨rec, line⟩ := call
    obtain ⟨r, hr, hrest⟩ := run_cons_some h
    exact ih r.m hrest (call_fenceInv m rec line r hr hinv)

theorem run_indent_nonneg (calls : List (Recognizer × Line)) (m m' : matcher)
    (h : m.run calls = some m') (h0 : 0 ≤ m.indentToRemove)
    (hlines : ∀ call ∈ calls, 0 ≤ call.2.Indent) : 0 ≤ m'.indentToRemove := by
  induction calls generalizing m with
  | nil => cases h; exact h0
  | cons call calls ih =>
    obtain ⟨rec, line⟩ := call
    obtain ⟨r, hr, hrest⟩ := run_cons_some h
    refine ih r.m hrest ?_ (fun c hc => hlines c (List.mem_cons_of_mem _ hc))
    rcases call_state m rec line r hr with hm | ⟨c, d, _, hm⟩ | hm | ⟨_, f, _, hm⟩
    · rw [hm]; exact h0
    · rw [hm]; exact h0
    · rw [hm]
    · rw [hm]; exact hlines (rec, line) (by simp)

/-- Claim C16. In every state reached from `NewMatcher` by a sequence of
recognizer calls on any lines, `activeDocStringSeparator` is `""`, `"""` or
the alternative fence literal, and whenever it is `""` the indent to remove is
zero; and `indentToRemove` is not negative when the indents of the lines, which
are counts, are not negative. -/
theorem fence_state_invariant (gdp : GherkinDialectProvider)
    (calls : List (Recognizer × Line)) (m : matcher)
    (hrun : (NewMatcher gdp).run calls = some m) :
    (m.activeDocStringSeparator = [] ∨ m.activeDocStringSeparator = DOCSTRING_SEPARATOR ∨
      m.activeDocStringSeparator = DOCSTRING_ALTERNATIVE_SEPARATOR) ∧
    (m.activeDocStringSeparator = [] → m.indentToRemove = 0) ∧
    ((∀ call ∈ calls, 0 ≤ call.2.Indent) → 0 ≤ m.indentToRemove) := by
  have hinv := run_fenceInv calls _ m hrun (NewMatcher_fenceInv gdp)
  exact ⟨hinv.1, hinv.2, run_indent_nonneg calls _ m hrun (le_refl _)⟩

/-- Witness of C16: a docstring opened at indent 2, with one content line. -/
theorem fence_state_invariant_witness :
    (openMatcher.activeDocStringSeparator = [] ∨
      openMatcher.activeDocStringSeparator = DOCSTRING_SEPARATOR ∨
      openMatcher.activeDocStringSeparator = DOCSTRING_ALTERNATIVE_SEPARATOR) ∧
    (openMatcher.activeDocStringSeparator = [] → openMatcher.indentToRemove = 0) ∧
    0 ≤ openMatcher.indentToRemove := by
  have h := fence_state_invariant sampleProvider
    [(Recognizer.DocStringSeparator, mkLine 1 (lit "  \"\"\"")),
     (Recognizer.Other, mkLine 2 (lit "    content"))] openMatcher rfl
  exact ⟨h.1, h.2.1, h.2.2 (by decide)⟩

/-- Claim C20. In every state reached from `NewMatcher` by a sequence of
recognizer calls in which no fence is open (`activeDocStringSeparator = ""`),
also after docstrings were opened and closed, `MatchOther` matches on every
line with the entire raw text of the line as the token's text, whatever its
leading spaces. -/
theorem MatchOther_outside_docstring (gdp : GherkinDialectProvider)
    (calls : List (Recognizer × Line)) (m : matcher) (line : Line)
    (hrun : (NewMatcher gdp).run calls = some m)
    (hclosed : m.activeDocStringSeparator = []) :
    ∃ tok, m.MatchOther line = some ⟨none, true, some tok, m⟩ ∧
      tok.Type_ = TokenType.Other ∧ tok.Text = line.lineText := by
  have hinv := run_fenceInv calls _ m hrun (NewMatcher_fenceInv gdp)
  have h0 := hinv.2 hclosed
  have hs := leadingSpaces_nonneg line.lineText
  refine ⟨_, MatchOther_eq m line, rfl, ?_⟩
  show line.lineText.drop _ = line.lineText
  have : (min (leadingSpaces line.lineText) m.indentToRemove).toNat = 0 := by
    rw [h0]; omega
  rw [this]
  rfl

/-- Witness of C20: after a docstring at indent 2 was opened and closed, the
line `"    indented"` keeps its four leading spaces. -/
theorem MatchOther_outside_docstring_witness :
    ∃ tok, sampleMatcher.MatchOther (mkLine 4 (lit "    indented"))
        = some ⟨none, true, some tok, sampleMatcher⟩ ∧
      tok.Type_ = TokenType.Other ∧ tok.Text = lit "    indented" :=
  MatchOther_outside_docstring sampleProvider
    [(Recognizer.DocStringSeparator, mkLine 1 (lit "  \"\"\"")),
     (Recognizer.Other, mkLine 2 (lit "    content")),
     (Recognizer.DocStringSeparator, mkLine 3 (lit "  \"\"\""))]
    sampleMatcher (mkLine 4 (lit "    indented")) rfl rfl

/-! ## The language of the reachable states -/

theorem getLast?_cons_getD (c d : GoString) (l : List GoString) :
    (c :: l).getLast?.getD d = l.getLast?.getD c := by
  cases l with
  | nil => rfl
  | cons a l =>
    rw [List.getLast?_cons_cons]
    cases h : (a :: l).getLast? with
    | none => simp at h
    | some x => rfl

theorem lastResolved_cons (gdp : GherkinDialectProvider) (call : Recognizer × Line)
    (calls : List (Recognizer × Line)) (dflt : GoString) :
    lastResolved gdp (call :: calls) dflt
      = lastResolved gdp calls ((resolvedCode gdp call).getD dflt) := by
  unfold lastResolved resolvedCodes
  cases h : resolvedCode gdp call with
  | none => simp [List.filterMap_cons, h]
  | some c =>
    simp only [List.filterMap_cons, h, Option.getD_some]
    exact getLast?_cons_getD c dflt _

theorem resolvedCode_of_ne (gdp : GherkinDialectProvider) (rec : Recognizer) (line : Line)
    (h : rec ≠ Recognizer.Language) : resolvedCode gdp (rec, line) = none := by
  cases rec <;> first | rfl | exact absurd rfl h

/-- One call: the provider stays, `lang` becomes the code that the call
resolves, if it resolves one, and `dialect` stays the provider's dialect for
`lang`. -/
theorem call_lang (m : matcher) (rec : Recognizer) (line : Line) (r : Outcome)
    (h : m.call rec line = some r) :
    r.m.gdp = m.gdp ∧ r.m.lang = (resolvedCode m.gdp (rec, line)).getD m.lang ∧
      (m.dialect = m.gdp m.lang → r.m.dialect = m.gdp r.m.lang) := by
  by_cases hL : rec = Recognizer.Language
  · subst hL
    rcases MatchLanguage_cases m line r h with ⟨hc, rfl⟩ | ⟨c, hc, hd, _, hm, _⟩ |
      ⟨c, d, hc, hd, _, hm, _⟩
    · exact ⟨rfl, by simp [resolvedCode, hc, decline], fun h => h⟩
    · rw [hm]
      exact ⟨rfl, by simp [resolvedCode, hc, hd, Option.filter], fun h => h⟩
    · rw [hm]
      exact ⟨rfl, by simp [resolvedCode, hc, hd, Option.filter], fun _ => hd.symm⟩
  · rw [resolvedCode_of_ne m.gdp rec line hL]
    by_cases hD : rec = Recognizer.DocStringSeparator
    · subst hD
      rcases MatchDocStringSeparator_cases m line r h with rfl | ⟨_, _, hm, _⟩ |
        ⟨_, _, f, _, hm, _⟩
      · exact ⟨rfl, rfl, fun h => h⟩
      · rw [hm]; exact ⟨rfl, rfl, fun h => h⟩
      · rw [hm]; exact ⟨rfl, rfl, fun h => h⟩
    · rw [(call_frame m rec line r hL hD h).1]
      exact ⟨rfl, rfl, fun h => h⟩

theorem run_lang (calls : List (Recognizer × Line)) (m m' : matcher)
    (h : m.run calls = some m') :
    m'.gdp = m.gdp ∧ m'.lang = lastResolved m.gdp calls m.lang ∧
      (m.dialect = m.gdp m.lang → m'.dialect = m.gdp m'.lang) := by
  induction calls generalizing m with
  | nil => cases h; exact ⟨rfl, rfl, fun h => h⟩
  | cons call calls ih =>
    obtain ⟨rec, line⟩ := call
    obtain ⟨r, hr, hrest⟩ := run_cons_some h
    obtain ⟨h1, h2, h3⟩ := call_lang m rec line r hr
    obtain ⟨g1, g2, g3⟩ := ih r.m hrest
    refine ⟨g1.trans h1, ?_, ?_⟩
    · rw [lastResolved_cons, g2, h1, h2]
    · intro hd
      have := g3 (by rw [h1]; exact h3 hd)
      rw [h1] at this
      exact this

theorem run_dialect_isSome (calls : List (Recognizer × Line)) (m m' : matcher)
    (h : m.run calls = some m') (hd : m.dialect.isSome = true) : m'.dialect.isSome = true := by
  induction calls generalizing m with
  | nil => cases h; exact hd
  | cons call calls ih =>
    obtain ⟨rec, line⟩ := call
    obtain ⟨r, hr, hrest⟩ := run_cons_some h
    refine ih r.m hrest ?_
    rcases call_state m rec line r hr with hm | ⟨c, d, _, hm⟩ | hm | ⟨_, f, _, hm⟩
    · rw [hm]; exact hd
    · rw [hm]; rfl
    · rw [hm]; exact hd
    · rw [hm]; exact hd

/-- Claim C11. In every state reached from `NewMatcher(gdp)` by a sequence of
recognizer calls on any lines, the provider is still `gdp`, `lang` is the
code of the most recent language directive that the provider resolved, or
`"en"` if there was none, and `dialect` is `gdp.GetDialect(lang)`, which is a
dialect and not nil when the provider resolves `"en"`.  In such a state
`MatchLanguage` on a directive whose code the provider resolves sets `lang` to
the code and `dialect` to the resolved dialect, and on a directive whose code
it does not resolve it changes nothing. -/
theorem dialect_state_invariant (gdp : GherkinDialectProvider)
    (calls : List (Recognizer × Line)) (m : matcher)
    (hrun : (NewMatcher gdp).run calls = some m) :
    m.gdp = gdp ∧ m.lang = lastResolved gdp calls DEFAULT_DIALECT ∧
    m.dialect = gdp m.lang ∧
    ((gdp DEFAULT_DIALECT).isSome = true → m.dialect.isSome = true) ∧
    (∀ line c d, MatchesLanguagePattern line.trimmedLineText c → gdp c = some d →
      ∃ r, m.MatchLanguage line = some r ∧ r.ok = true ∧ r.err = none ∧
        r.m.lang = c ∧ r.m.dialect = some d ∧ r.m.dialect = gdp r.m.lang) ∧
    (∀ line c, MatchesLanguagePattern line.trimmedLineText c → gdp c = none →
      ∃ r, m.MatchLanguage line = some r ∧ r.ok = true ∧ r.m = m ∧
        r.m.lang = m.lang ∧ r.m.dialect = m.dialect) := by
  obtain ⟨h1, h2, h3⟩ := run_lang calls _ m hrun
  have hg : m.gdp = gdp := h1
  refine ⟨hg, h2, h3 rfl, fun hen => run_dialect_isSome calls _ m hrun hen, ?_, ?_⟩
  · intro line c d hpat hd
    refine ⟨_, MatchLanguage_eq_resolved m line c d ((directiveCode_iff line c).mpr hpat)
      (by rw [hg]; exact hd), rfl, rfl, rfl, rfl, hd.symm⟩
  · intro line c hpat hd
    exact ⟨_, MatchLanguage_eq_unresolved m line c ((directiveCode_iff line c).mpr hpat)
      (by rw [hg]; exact hd), rfl, rfl, rfl, rfl⟩

/-- Witness of C11: a resolved directive `fr`, then an unresolved one `xx`,
then a step line: `lang` is `fr` and the dialect is the French one. -/
theorem dialect_state_invariant_witness :
    lastResolved twoProvider
      [(Recognizer.Language, mkLine 1 (lit "# language: fr")),
       (Recognizer.Language, mkLine 2 (lit "#language:xx")),
       (Recognizer.StepLine, mkLine 3 (lit "Soit x"))] DEFAULT_DIALECT = lit "fr" ∧
    ({ NewMatcher twoProvider with lang := lit "fr", dialect := some frDialect } : matcher).lang
      = lastResolved twoProvider
        [(Recognizer.Language, mkLine 1 (lit "# language: fr")),
         (Recognizer.Language, mkLine 2 (lit "#language:xx")),
         (Recognizer.StepLine, mkLine 3 (lit "Soit x"))] DEFAULT_DIALECT ∧
    some frDialect = twoProvider (lit "fr") := by
  have h := dialect_state_invariant twoProvider
    [(Recognizer.Language, mkLine 1 (lit "# language: fr")),
     (Recognizer.Language, mkLine 2 (lit "#language:xx")),
     (Recognizer.StepLine, mkLine 3 (lit "Soit x"))]
    { NewMatcher twoProvider with lang := lit "fr", dialect := some frDialect } rfl
  exact ⟨by decide, h.2.1, h.2.2.1⟩

/-! ## The stamp of the tokens -/

/-- Every token carries the `lang` that the matcher had when the recognizer
was entered. -/
theorem call_stamp (m : matcher) (rec : Recognizer) (line : Line) (r : Outcome) (tok : Token)
    (h : m.call rec line = some r) (htok : r.token = some tok) :
    tok.GherkinDialect = m.lang := by
  by_cases hL : rec = Recognizer.Language
  · subst hL
    rcases MatchLanguage_cases m line r h with ⟨_, rfl⟩ | ⟨c, _, _, _, _, ht⟩ |
      ⟨c, d, _, _, _, _, ht⟩
    · cases htok
    · rw [ht] at htok; cases htok; rfl
    · rw [ht] at htok; cases htok; rfl
  · by_cases hD : rec = Recognizer.DocStringSeparator
    · subst hD
      rcases MatchDocStringSeparator_cases m line r h with rfl | ⟨_, _, _, ht⟩ |
        ⟨_, _, f, _, _, ht⟩
      · cases htok
      · rw [ht] at htok; cases htok; rfl
      · rw [ht] at htok; cases htok; rfl
    · exact (call_frame m rec line r hL hD h).2 tok htok

theorem lastResolved_of_none (gdp : GherkinDialectProvider)
    (calls : List (Recognizer × Line)) (dflt : GoString)
    (h : resolvedCodes gdp calls = []) : lastResolved gdp calls dflt = dflt := by
  unfold lastResolved
  rw [h]
  rfl

/-- Claim C19. On a line on which `MatchLanguage` matches a code `c` that the
provider resolves, the language token carries in `GherkinDialect` the `lang`
that the matcher had before the call, and the `lang` of the matcher after the
call is `c`; after any further calls that resolve no directive the `lang` is
still `c`, and every token that a recognizer emits then carries `c`.  In
general every token of every recognizer carries the `lang` that the matcher
had when the recognizer was entered. -/
theorem language_token_stamp (m : matcher) (line : Line) (c : GoString) (d : GherkinDialect)
    (hpat : MatchesLanguagePattern line.trimmedLineText c) (hres : m.gdp c = some d) :
    (∃ r tok, m.MatchLanguage line = some r ∧ r.ok = true ∧ r.token = some tok ∧
      tok.Type_ = TokenType.Language ∧ tok.Text = c ∧
      tok.GherkinDialect = m.lang ∧ r.m.lang = c ∧
      ∀ calls m2, resolvedCodes m.gdp calls = [] → r.m.run calls = some m2 →
        m2.lang = c ∧
        ∀ rec l r2 tok2, m2.call rec l = some r2 → r2.token = some tok2 →
          tok2.GherkinDialect = c) ∧
    (∀ (m0 : matcher) rec l r0 tok0, m0.call rec l = some r0 → r0.token = some tok0 →
      tok0.GherkinDialect = m0.lang) := by
  refine ⟨⟨_, _, MatchLanguage_eq_resolved m line c d ((directiveCode_iff line c).mpr hpat) hres,
    rfl, rfl, rfl, rfl, rfl, rfl, ?_⟩, fun m0 rec l r0 tok0 h ht => call_stamp m0 rec l r0 tok0 h ht⟩
  intro calls m2 hnone hrun
  obtain ⟨_, h2, _⟩ := run_lang calls _ m2 hrun
  have hl : m2.lang = c := by
    rw [h2]
    exact lastResolved_of_none _ _ _ hnone
  refine ⟨hl, ?_⟩
  intro rec l r2 tok2 h ht
  rw [call_stamp m2 rec l r2 tok2 h ht, hl]

/-- Witness of C19: `"# language: fr"` on the matcher as created: the language
token carries `en`, the state after it has `fr`, and so has the token of the
step line that follows. -/
theorem language_token_stamp_witness :
    ∃ r tok r2 tok2,
      (NewMatcher twoProvider).MatchLanguage (mkLine 1 (lit "# language: fr")) = some r ∧
      r.token = some tok ∧ tok.GherkinDialect = lit "en" ∧ r.m.lang = lit "fr" ∧
      r.m.MatchStepLine (mkLine 2 (lit "Soit x")) = some r2 ∧ r2.token = some tok2 ∧
      tok2.GherkinDialect = lit "fr" := by
  obtain ⟨⟨r, tok, h1, _, h3, _, _, h6, h7, h8⟩, _⟩ :=
    language_token_stamp (NewMatcher twoProvider) (mkLine 1 (lit "# language: fr")) (lit "fr")
      frDialect
      ⟨[], [32], [], [32], [], by decide, by decide, by decide, by decide, by decide,
        by decide, by decide, by decide⟩
      rfl
  have hm : r.m = { NewMatcher twoProvider with lang := lit "fr", dialect := some frDialect } := by
    rw [MatchLanguage_eq_resolved (NewMatcher twoProvider) (mkLine 1 (lit "# language: fr"))
      (lit "fr") frDialect (by decide) rfl] at h1
    cases h1
    rfl
  have hs : r.m.MatchStepLine (mkLine 2 (lit "Soit x"))
      = some ⟨none, true, some { r.m.newTokenAtLocation 2 0 with
          Type_ := TokenType.StepLine, Keyword := lit "Soit ", Text := lit "x" }, r.m⟩ := by
    rw [hm]
    rfl
  refine ⟨r, tok, _, _, h1, h3, h6, h7, hs, rfl, ?_⟩
  exact (h8 [] r.m rfl rfl).2 Recognizer.StepLine (mkLine 2 (lit "Soit x")) _ _ hs rfl

/-! ## `MatchTableRow` on rows that are not closed -/

/-- `MatchTableRow` returns on a line exactly when the line does not start
with the cell delimiter or its space-trimmed text has at least two bytes. -/
theorem MatchTableRow_returns_iff (m : matcher) (line : Line) :
    (∃ r, m.MatchTableRow line = some r) ↔
      (line.StartsWith TABLE_CELL_SEPARATOR = false ∨
        2 ≤ (Trim line.trimmedLineText SP).length) := by
  cases hstart : line.StartsWith TABLE_CELL_SEPARATOR with
  | false =>
    simp only [true_or, iff_true]
    exact ⟨decline m, by simp [matcher.MatchTableRow, hstart]⟩
  | true =>
    simp only [Bool.true_eq_false, false_or]
    constructor
    · rintro ⟨r, hr⟩
      by_contra hlt
      have hs : slice (Trim line.trimmedLineText SP) 1 (len (Trim line.trimmedLineText SP) - 1)
          = none := by
        unfold slice
        rw [if_neg]
        simp only [len]
        omega
      simp [matcher.MatchTableRow, hstart, hs] at hr
    · intro hlen
      obtain ⟨inner, x, _, ht, _⟩ := row_shape line hstart hlen
      exact ⟨_, MatchTableRow_eq m line inner x hstart ht⟩

/-- Claim C13, at the failing input: on the line `"|"`, and on `"  |  "`,
which start with the cell delimiter, `MatchTableRow` does not return: the
space-trimmed text is `"|"` and the slice `ttxt[1:len(ttxt)-1]` is `ttxt[1:0]`,
out of bounds. -/
theorem MatchTableRow_lone_delimiter :
    (mkLine 1 (lit "|")).StartsWith TABLE_CELL_SEPARATOR = true ∧
    slice (Trim (mkLine 1 (lit "|")).trimmedLineText SP) 1
      (len (Trim (mkLine 1 (lit "|")).trimmedLineText SP) - 1) = none ∧
    sampleMatcher.MatchTableRow (mkLine 1 (lit "|")) = none ∧
    sampleMatcher.MatchTableRow (mkLine 2 (lit "  |  ")) = none :=
  ⟨by decide, by decide, rfl, rfl⟩

/-- Claim C15, at the failing input: on the row `"| a | b"`, which does not end
with a delimiter, the byte that `MatchTableRow` removes at the end of the
space-trimmed text is `'b'`, not `'|'`; the text that is split is `" a | "`, the
cells are `"a"` and `""`, and `'b'` is in no raw cell. -/
theorem MatchTableRow_unclosed_row :
    (Trim (mkLine 1 (lit "| a | b")).trimmedLineText SP).getLast? = some 98 ∧
    slice (Trim (mkLine 1 (lit "| a | b")).trimmedLineText SP) 1
      (len (Trim (mkLine 1 (lit "| a | b")).trimmedLineText SP) - 1) = some (lit " a | ") ∧
    (∀ cell ∈ Split (lit " a | ") BAR, 98 ∉ cell) ∧
    sampleMatcher.MatchTableRow (mkLine 1 (lit "| a | b"))
      = some ⟨none, true, some { sampleMatcher.newTokenAtLocation 1 0 with
          Type_ := TokenType.TableRow
          Items := [⟨3, lit "a"⟩, ⟨7, lit ""⟩] }, sampleMatcher⟩ :=
  ⟨by decide, by decide, by decide, rfl⟩

/-! ## The column of the whole-line tokens -/

/-- Counterexample to C14 as stated: on the line `"text"` the token of
`MatchOther` is at column 1, not 0, and so is the token of `MatchComment` on
the line `"# note"`. -/
theorem whole_line_column_counterexample :
    ¬ ((∀ tok, (sampleMatcher.MatchOther (mkLine 1 (lit "text"))).bind (fun r => r.token)
          = some tok → tok.Location.Column = 0) ∧
       (∀ tok, (sampleMatcher.MatchComment (mkLine 2 (lit "# note"))).token = some tok →
          tok.Location.Column = 0)) := by
  rintro ⟨h, _⟩
  have := h { sampleMatcher.newTokenAtLocation 1 0 with
    Type_ := TokenType.Other, Text := lit "text" } rfl
  revert this
  decide

/-- Claim C14, amended. For every line and state the token of `MatchOther` is
located at the line number and column 1: the index passed to
`newTokenAtLocation` is 0 and the column is the index plus one.  For every
line that starts with the comment prefix, `MatchComment` matches with a comment
token located at column 1 that carries the entire raw line as its text. -/
theorem whole_line_column (m : matcher) (line : Line) :
    (∃ tok, m.MatchOther line = some ⟨none, true, some tok, m⟩ ∧
      tok.Type_ = TokenType.Other ∧ tok.Location = ⟨line.lineNumber, 1⟩ ∧
      tok.Location.Column = 1) ∧
    (line.StartsWith COMMENT_PREFIX = true →
      ∃ tok, m.MatchComment line = ⟨none, true, some tok, m⟩ ∧
        tok.Type_ = TokenType.Comment ∧ tok.Location = ⟨line.lineNumber, 1⟩ ∧
        tok.Location.Column = 1 ∧ tok.Text = line.lineText) := by
  refine ⟨⟨_, MatchOther_eq m line, rfl, ?_, ?_⟩, ?_⟩
  · simp [matcher.newTokenAtLocation]
  · simp [matcher.newTokenAtLocation]
  · intro hstart
    refine ⟨{ m.newTokenAtLocation line.lineNumber 0 with
      Type_ := TokenType.Comment, Text := line.lineText }, ?_, rfl, ?_, ?_, rfl⟩
    · simp only [matcher.MatchComment, hstart, if_true]
    · simp [matcher.newTokenAtLocation]
    · simp [matcher.newTokenAtLocation]

/-- Witness of C14, amended: the indented comment `"  # note"`. -/
theorem whole_line_column_witness :
    ∃ tok, sampleMatcher.MatchComment (mkLine 2 (lit "  # note"))
        = ⟨none, true, some tok, sampleMatcher⟩ ∧
      tok.Type_ = TokenType.Comment ∧ tok.Location = ⟨2, 1⟩ ∧
      tok.Location.Column = 1 ∧ tok.Text = lit "  # note" :=
  (whole_line_column sampleMatcher (mkLine 2 (lit "  # note"))).2 (by decide)

/-! ## The columns of the tags are byte offsets -/

theorem Split_no_sep (s : GoString) (c : Nat) : ∀ f ∈ Split s c, c ∉ f := by
  induction s with
  | nil => simp [Split]
  | cons b s ih =>
    simp only [Split]
    split
    · intro f hf
      rcases List.mem_cons.mp hf with rfl | hf
      · simp
      · exact ih f hf
    · next hb =>
      cases h : Split s c with
      | nil => exact absurd h (Split_ne_nil s c)
      | cons g gs =>
        rw [h] at ih
        intro f hf
        rcases List.mem_cons.mp hf with rfl | hf
        · intro hmem
          rcases List.mem_cons.mp hmem with rfl | hmem
          · exact hb rfl
          · exact ih g (by simp) hmem
        · exact ih f (List.mem_cons_of_mem _ hf)

theorem runeCount_ascii (p : GoString) (h : ∀ b ∈ p, b < 128) : runeCount p = p.length := by
  unfold runeCount
  rw [List.filter_eq_self.mpr]
  intro b hb
  have := h b hb
  simp only [bne_iff_ne, ne_eq]
  omega

theorem tagSpanAt_cons_succ (column : Int) (f : GoString) (fs : List GoString) (j : Nat) :
    tagSpanAt column (f :: fs) (j + 1) = tagSpanAt (column + len f + 1) fs j := by
  unfold tagSpanAt
  rw [List.getElem?_cons_succ, textBefore_cons_succ]
  cases fs[j]? with
  | none => rfl
  | some g =>
    have hl : column + len (f ++ AT :: textBefore AT fs j)
        = column + len f + 1 + len (textBefore AT fs j) := by
      simp only [len, List.length_append, List.length_cons]
      push_cast
      ring
    simp only [hl]

/-- The loop of `MatchTagLine` in closed form over the fragments: the spans
are those of the fragments that are not empty after trimming, in order. -/
theorem tagSpans_filterMap (fs : List GoString) (column : Int) :
    tagSpans fs column = (List.range fs.length).filterMap (tagSpanAt column fs) := by
  induction fs generalizing column with
  | nil => simp [tagSpans]
  | cons f fs ih =>
    have h0 : tagSpanAt column (f :: fs) 0
        = if Trim f SP ≠ [] then some ⟨column, TAG_PREFIX ++ Trim f SP⟩ else none := by
      simp [tagSpanAt, textBefore_zero, len]
    have hsucc : (tagSpanAt column (f :: fs)) ∘ Nat.succ = tagSpanAt (column + len f + 1) fs := by
      funext j
      exact tagSpanAt_cons_succ column f fs j
    rw [List.length_cons, List.range_succ_eq_map, List.filterMap_cons, List.filterMap_map,
      hsucc, ← ih, h0]
    simp only [tagSpans]
    by_cases h : Trim f SP = [] <;> simp [h]

/-- Counterexample to C18 as stated: on the line `"@é @b"` the span of the
second tag, `"@b"`, is at column 5, while three characters, `@`, `é` and the
space, stand before its `'@'`: one plus their number is 4. -/
theorem tag_column_characters_counterexample :
    ∃ tok sp p, sampleMatcher.MatchTagLine (mkLine 1 (lit "@é @b"))
        = ⟨none, true, some tok, sampleMatcher⟩ ∧
      sp ∈ tok.Items ∧ sp.Text = lit "@b" ∧
      (mkLine 1 (lit "@é @b")).lineText = p ++ sp.Text ∧
      1 + (runeCount p : Int) = 4 ∧ sp.Column = 5 ∧ sp.Column ≠ 1 + (runeCount p : Int) :=
  ⟨{ sampleMatcher.newTokenAtLocation 1 0 with
      Type_ := TokenType.TagLine
      Items := [⟨1, lit "@é"⟩, ⟨5, lit "@b"⟩] },
    ⟨5, lit "@b"⟩, lit "@é ", rfl, by decide, rfl, by decide, by decide, rfl, by decide⟩

/-- Claim C18, amended. On a line whose trimmed text starts with the tag
prefix and whose indent is the number of bytes stripped from the raw text,
with `len` the UTF-8 byte length as in the code, the spans of the tag-line
token are exactly, in order, those of the fragments of the split of the
trimmed text that are not empty after trimming.  For such a fragment `f`, the
fragment `j`, the raw line is some text `q`, then that tag's `'@'`, then `f`,
which holds no `'@'`, then the later fragments each after its `'@'`; the
span's text is `"@"` followed by the trimmed `f` and its column is one plus
the number of bytes of `q`, the text before that `'@'`.  When `q` is ASCII this
is one plus the number of characters before the `'@'`. -/
theorem MatchTagLine_column_bytes (m : matcher) (line : Line)
    (hstart : line.StartsWith TAG_PREFIX = true) (hind : line.IndentIsStripped) :
    ∃ tok, m.MatchTagLine line = ⟨none, true, some tok, m⟩ ∧
      tok.Items = (List.range (Split line.trimmedLineText AT).length).filterMap
        (tagSpanAt line.Indent (Split line.trimmedLineText AT)) ∧
      ∀ (j : Nat) (f : GoString),
        (Split line.trimmedLineText AT)[j]? = some f → Trim f SP ≠ [] →
        ∃ q, line.lineText
              = q ++ AT :: (f ++ ((Split line.trimmedLineText AT).drop (j + 1)).flatMap
                  (fun g => AT :: g)) ∧
          AT ∉ f ∧
          tagSpanAt line.Indent (Split line.trimmedLineText AT) j
            = some ⟨1 + len q, TAG_PREFIX ++ Trim f SP⟩ ∧
          ((∀ b ∈ q, b < 128) → (1 + len q : Int) = 1 + (runeCount q : Int)) := by
  obtain ⟨pre, hpre, hindent⟩ := hind
  obtain ⟨t, ht⟩ := hasPrefix_singleton (c := AT) hstart
  have hsplit : Split line.trimmedLineText AT = [] :: Split t AT := by
    rw [ht]; simp [Split]
  refine ⟨{ m.newTokenAtLocation line.lineNumber line.Indent with
      Type_ := TokenType.TagLine
      Items := ((Split line.trimmedLineText AT).foldl tagStep ([], line.Indent)).1 }, ?_, ?_, ?_⟩
  · simp only [matcher.MatchTagLine, hstart, if_true]
  · show ((Split line.trimmedLineText AT).foldl tagStep ([], line.Indent)).1 = _
    rw [foldl_tagStep, List.nil_append, tagSpans_filterMap]
  · intro j f hj hne
    have hno : AT ∉ f :=
      Split_no_sep _ _ f (List.getElem?_mem hj)
    rw [hsplit] at hj ⊢
    cases j with
    | zero =>
      simp only [List.getElem?_cons_zero, Option.some.injEq] at hj
      subst hj
      exact absurd (by decide) hne
    | succ j =>
      simp only [List.getElem?_cons_succ] at hj
      have hdec := Split_decompose t AT j f hj
      have hshift := flatMap_shift AT ((Split t AT).take j)
      have hlenq : len (((Split t AT).take j).flatMap (fun g => AT :: g))
          = len (textBefore AT (Split t AT) j) := by
        have := congrArg List.length hshift
        simp only [List.length_append, List.length_cons, List.length_nil] at this
        simp only [len, textBefore]
        omega
      refine ⟨pre ++ ((Split t AT).take j).flatMap (fun g => AT :: g), ?_, hno, ?_, ?_⟩
      · rw [hpre, ht]
        conv_lhs => rw [hdec]
        have h2 : pre ++ AT :: (textBefore AT (Split t AT) j ++ f
              ++ ((Split t AT).drop (j + 1)).flatMap (fun g => AT :: g))
            = pre ++ ((AT :: textBefore AT (Split t AT) j) ++ (f
              ++ ((Split t AT).drop (j + 1)).flatMap (fun g => AT :: g))) := by simp
        rw [h2]
        have h3 : AT :: textBefore AT (Split t AT) j
            = ((Split t AT).take j).flatMap (fun g => AT :: g) ++ [AT] := hshift.symm
        rw [h3]
        simp
      · rw [tagSpanAt_cons_succ]
        unfold tagSpanAt
        rw [hj]
        simp only [hne, ne_eq, not_false_eq_true, if_true, Option.some.injEq,
          LineSpan.mk.injEq, and_true]
        have hq : len (pre ++ ((Split t AT).take j).flatMap (fun g => AT :: g))
            = len pre + len (((Split t AT).take j).flatMap (fun g => AT :: g)) := by
          simp [len]
        rw [hq, hlenq, hindent]
        simp only [len, List.length_nil]
        push_cast
        ring
      · intro hascii
        rw [runeCount_ascii _ hascii]
        rfl

/-- Witness of C18, amended, on the line `"@é @b"`: the spans are `"@é"` at
column 1 and `"@b"` at column 5. -/
theorem MatchTagLine_column_bytes_witness :
    ∃ tok, sampleMatcher.MatchTagLine (mkLine 1 (lit "@é @b"))
        = ⟨none, true, some tok, sampleMatcher⟩ ∧
      tok.Items = [⟨1, lit "@é"⟩, ⟨5, lit "@b"⟩] ∧
      ∃ q, (mkLine 1 (lit "@é @b")).lineText = q ++ AT :: lit "b" ∧ (1 + len q : Int) = 5 := by
  obtain ⟨tok, h1, h2, h3⟩ :=
    MatchTagLine_column_bytes sampleMatcher (mkLine 1 (lit "@é @b")) (by decide)
      ⟨[], by decide, by decide⟩
  obtain ⟨q, hq, _, hcol, _⟩ := h3 2 (lit "b") (by decide) (by decide)
  have hspan : tagSpanAt (mkLine 1 (lit "@é @b")).Indent
      (Split (mkLine 1 (lit "@é @b")).trimmedLineText AT) 2 = some ⟨5, lit "@b"⟩ := by decide
  rw [hspan] at hcol
  have h5 : (1 + len q : Int) = 5 := by
    have := congrArg LineSpan.Column (Option.some.inj hcol)
    exact this.symm
  refine ⟨tok, h1, ?_, q, ?_, h5⟩
  · rw [h2]; decide
  · rw [hq]; rfl

end Gherkin
